import Mathlib

/-!
Verification of the voicechat text-to-speech pipeline.

This file shallowly embeds the core of the repository (the Kokoro TTS
front-end and streaming playback engine) in Lean 4 and proves the frozen
claims about it.  JavaScript numbers are modelled as `ℚ` (for float
samples and durations) and `Nat`/`Int` (for indices and PCM values);
JavaScript strings are modelled as `List Char` or `String`; the mutable
`KokoroOnnx` class instance is modelled as an explicit state record.
-/

namespace VoiceChat

/-! ## Constants from the source -/

def SAMPLE_RATE : Nat := 24000

def STYLE_DIM : Nat := 256

def MAX_PHONEME_LENGTH : Nat := 510

/-! ## Waveform encoder (KokoroOnnx._floatArrayToWav)

The source converts each float sample with
`Math.max(-32768, Math.min(32767, Math.floor(floatArray[i] * 32767)))`
and then writes a 44-byte RIFF/WAVE header followed by the
little-endian 16-bit samples. -/

def floatToInt16 (s : ℚ) : ℤ :=
  max (-32768) (min 32767 ⌊s * 32767⌋)

def le16u (n : Nat) : List Nat :=
  [n % 256, n / 256 % 256]

def le32u (n : Nat) : List Nat :=
  [n % 256, n / 2 ^ 8 % 256, n / 2 ^ 16 % 256, n / 2 ^ 24 % 256]

def int16Bytes (v : ℤ) : List Nat :=
  le16u (v % 65536).toNat

def wavHeader (sampleRate dataLength : Nat) : List Nat :=
  [82, 73, 70, 70] ++ le32u (36 + dataLength) ++
  [87, 65, 86, 69] ++ [102, 109, 116, 32] ++ le32u 16 ++
  le16u 1 ++ le16u 1 ++ le32u sampleRate ++ le32u (sampleRate * 2) ++
  le16u 2 ++ le16u 16 ++ [100, 97, 116, 97] ++ le32u dataLength

def floatArrayToWav (xs : List ℚ) (sampleRate : Nat) : List Nat :=
  wavHeader sampleRate (2 * xs.length) ++ (xs.map floatToInt16).flatMap int16Bytes

/-! ## Streaming state (fields of the KokoroOnnx class) -/

structure AudioChunk where
  uri : String
  duration : ℚ
deriving DecidableEq

structure KokoroState where
  session : Option Nat
  isModelLoaded : Bool
  isOnnxAvailable : Bool
  currentModelId : Option String
  isStreaming : Bool
  streamingSound : Option Nat
  tokensPerSecond : ℚ
  timeToFirstToken : Nat
  streamingPhonemes : String
  audioQueue : List AudioChunk
  isPlayingQueue : Bool
  currentQueuePlayer : Option Nat
deriving DecidableEq

/-- Embedding of `KokoroOnnx.stopStreaming`: releases both players and
resets every streaming-related field. -/
def stopStreaming (s : KokoroState) : KokoroState :=
  { s with
    streamingSound := none
    currentQueuePlayer := none
    audioQueue := []
    isPlayingQueue := false
    isStreaming := false
    tokensPerSecond := 0
    timeToFirstToken := 0
    streamingPhonemes := "" }

/-- The state in which nothing is streaming: queue empty, not playing,
not streaming, zeroed counters, cleared phonemes, no players held. -/
def streamingIdle (s : KokoroState) : Prop :=
  s.streamingSound = none ∧ s.currentQueuePlayer = none ∧
  s.audioQueue = [] ∧ s.isPlayingQueue = false ∧ s.isStreaming = false ∧
  s.tokensPerSecond = 0 ∧ s.timeToFirstToken = 0 ∧ s.streamingPhonemes = ""

/-! ## generateAudio guard order (KokoroOnnx.generateAudio)

The side effects of a `generateAudio` call are recorded as a trace so
that "no inference call is attempted" can be stated.  The guards and
effect order mirror the source: availability check, model-loaded check,
then voice download, tokenization, voice-data fetch, tensor building,
session null-check, inference, encoding, player creation. -/

inductive GenEffect
  | downloadVoice
  | tokenizeText
  | getVoiceData
  | buildTensors
  | runInference
  | encodeWav
  | createPlayer
deriving DecidableEq

def generateAudio (s : KokoroState) (_text _voiceId : String) (_speed : ℚ) :
    List GenEffect × Except String Unit :=
  if s.isOnnxAvailable = false then
    ([], Except.error "ONNX Runtime is not available on this platform")
  else if s.isModelLoaded = false then
    ([], Except.error "Model not loaded. Call loadModel() first.")
  else
    let pre := [GenEffect.downloadVoice, GenEffect.tokenizeText,
                GenEffect.getVoiceData, GenEffect.buildTensors]
    match s.session with
    | none => (pre, Except.error "Session is not initialized")
    | some _ =>
        (pre ++ [GenEffect.runInference, GenEffect.encodeWav, GenEffect.createPlayer],
         Except.ok ())

/-! ## Phoneme vocabulary and tokenizer (src/kokoro/phonemics.ts)

The VOCAB table is built from `[_pad] ++ _punctuation ++ _letters ++
_letters_ipa`, assigning each symbol its index; a later duplicate symbol
overwrites an earlier one (the JS loop does `dicts[symbols[i]] = i`).
The symbols are transcribed below by code point: `$`, then the
punctuation characters (the quote character 0x22 occurs three times),
the Latin letters, and the IPA characters (the apostrophe 0x27 occurs
twice). -/

def vocabSymbolCodes : List Nat :=
  [36, 59, 58, 44, 46, 33, 63, 161, 191, 8212, 8230, 34, 171, 187, 34, 34, 32,
   65, 66, 67, 68, 69, 70, 71, 72, 73, 74, 75, 76, 77, 78, 79, 80, 81, 82, 83,
   84, 85, 86, 87, 88, 89, 90, 97, 98, 99, 100, 101, 102, 103, 104, 105, 106,
   107, 108, 109, 110, 111, 112, 113, 114, 115, 116, 117, 118, 119, 120, 121,
   122, 593, 592, 594, 230, 595, 665, 946, 596, 597, 231, 599, 598, 240, 676,
   601, 600, 602, 603, 604, 605, 606, 607, 644, 609, 608, 610, 667, 614, 615,
   295, 613, 668, 616, 618, 669, 621, 620, 619, 622, 671, 625, 623, 624, 331,
   627, 626, 628, 248, 629, 632, 952, 339, 630, 664, 633, 634, 638, 635, 640,
   641, 637, 642, 643, 648, 679, 649, 650, 651, 11377, 652, 611, 612, 653, 967,
   654, 655, 657, 656, 658, 660, 673, 661, 674, 448, 449, 450, 451, 712, 716,
   720, 721, 700, 692, 688, 689, 690, 695, 736, 740, 734, 8595, 8593, 8594,
   8599, 8600, 39, 809, 39, 7547]

def vocabSymbols : List Char :=
  vocabSymbolCodes.map Char.ofNat

/-- Lookup in the VOCAB object: the index of the character in the symbol
list, the last occurrence winning for duplicated symbols (mirroring the
JS assignment loop, where a later `dicts[symbols[i]] = i` overwrites). -/
def vocabIndex (c : Char) : Option Nat :=
  vocabSymbols.enum.foldl (fun acc p => if p.2 = c then some p.1 else acc) none

/-- Embedding of the token-building loop of `tokenize`
(src/kokoro/phonemics.ts lines 337-354): a start sentinel 0, one token
per phoneme character found in the vocabulary (characters not in the
vocabulary are dropped with a warning), and an end sentinel 0.  The
earlier branch of `tokenize` may first replace the input by `phonemize`
output; the theorem quantifies over the phoneme string the loop
consumes, which is exactly the phoneme string the function returns, so
it covers both paths. -/
def tokenize (phonemes : List Char) : List Nat :=
  [0] ++ phonemes.filterMap vocabIndex ++ [0]

/-! ## Style-vector slicing (KokoroOnnx._generateChunkAudio / generateAudio)

`numTokens = Math.min(Math.max(tokens.length - 2, 0), MAX_PHONEME_LENGTH - 1)`,
`offset = numTokens * STYLE_DIM`, `styleData = voiceData.slice(offset,
offset + STYLE_DIM)`.  `getVoiceData` itself is not under src/; per the
spec it returns the per-voice style table, a Float32Array whose length
is a multiple of 256 covering the model's maximum context, so the
theorem takes the table length as a hypothesis. -/

def effectiveTokenCount (tokensLength : Nat) : ℤ :=
  min (max ((tokensLength : ℤ) - 2) 0) ((MAX_PHONEME_LENGTH : ℤ) - 1)

def styleVector (voiceData : List ℚ) (tokensLength : Nat) : List ℚ :=
  ((voiceData.drop ((effectiveTokenCount tokensLength).toNat * STYLE_DIM)).take STYLE_DIM)

/-! ## Text normalization (normalizeText in src/kokoro/phonemics.ts)

`normalizeText` trims, collapses whitespace runs (`\s+`) to a single
space, replaces curly quotes by straight quotes, and rewrites the
ellipsis glyph to three periods.  `isJsWhitespace` is the JavaScript
`\s` / `trim` whitespace class. -/

def isJsWhitespace (c : Char) : Bool :=
  c.toNat = 9 || c.toNat = 10 || c.toNat = 11 || c.toNat = 12 || c.toNat = 13 ||
  c.toNat = 32 || c.toNat = 160 || c.toNat = 5760 ||
  (8192 ≤ c.toNat && c.toNat ≤ 8202) || c.toNat = 8232 || c.toNat = 8233 ||
  c.toNat = 8239 || c.toNat = 8287 || c.toNat = 12288 || c.toNat = 65279

/-- JavaScript `String.prototype.trim`. -/
def trimChars (l : List Char) : List Char :=
  ((l.dropWhile isJsWhitespace).reverse.dropWhile isJsWhitespace).reverse

/-- JavaScript `replace(/\s+/g, ' ')`: each maximal whitespace run is
replaced by a single space.  The flag records whether the previous
character was part of a whitespace run. -/
def collapseWsAux : Bool → List Char → List Char
  | _, [] => []
  | prevWs, c :: cs =>
      if isJsWhitespace c then
        if prevWs then collapseWsAux true cs
        else Char.ofNat 32 :: collapseWsAux true cs
      else c :: collapseWsAux false cs

/-- JavaScript `replace(/[‘’]/g, "'").replace(/[“”]/g, '"')`. -/
def replaceQuotes (c : Char) : Char :=
  if c.toNat = 8216 ∨ c.toNat = 8217 then Char.ofNat 39
  else if c.toNat = 8220 ∨ c.toNat = 8221 then Char.ofNat 34
  else c

/-- JavaScript `replace(/…/g, '...')`. -/
def expandEllipsis (l : List Char) : List Char :=
  l.flatMap fun c =>
    if c.toNat = 8230 then [Char.ofNat 46, Char.ofNat 46, Char.ofNat 46] else [c]

def normalizeText (l : List Char) : List Char :=
  expandEllipsis ((collapseWsAux false (trimChars l)).map replaceQuotes)

/-- Head-of-list whitespace test (false on the empty list). -/
def headWs (l : List Char) : Bool :=
  match l.head? with
  | some c => isJsWhitespace c
  | none => false

/-- Last-of-list whitespace test (false on the empty list). -/
def lastWs (l : List Char) : Bool :=
  headWs l.reverse

/-- No two adjacent whitespace characters. -/
def noWsRun : List Char → Bool
  | [] => true
  | [_] => true
  | c :: d :: rest => (!(isJsWhitespace c) || !(isJsWhitespace d)) && noWsRun (d :: rest)

/-- Every whitespace character is a plain space. -/
def wsOnlySpace (l : List Char) : Bool :=
  l.all fun c => !(isJsWhitespace c) || c = Char.ofNat 32

/-- No curly quote characters. -/
def noCurlyQuotes (l : List Char) : Bool :=
  l.all fun c =>
    !(c.toNat = 8216 || c.toNat = 8217 || c.toNat = 8220 || c.toNat = 8221)

/-- No ellipsis glyph. -/
def noEllipsisGlyph (l : List Char) : Bool :=
  l.all fun c => !(c.toNat = 8230)

/-! ## CMU dictionary (src/kokoro/cmuDictionary.ts)

`normalizeWord` removes variant markers `(digits)`, lowercases, trims,
and strips the punctuation class `[.,!?;:'"]`.  `loadCMUDictionary`
caches the parsed mapping in a module-level variable; the cache is
modelled as explicit state, and the returned `Bool` records whether the
raw table was actually parsed on this call.  The mapping itself is an
association list to which an entry is added only if its normalized key
is not yet present (`if (!dictionary.has(normalized))`). -/

def isAsciiDigit (c : Char) : Bool :=
  48 ≤ c.toNat && c.toNat ≤ 57

/-- Attempt to match `digits+ ')'` at the start of the list (the part of
the variant-marker pattern after the opening parenthesis); on success
return the remainder after the closing parenthesis. -/
def matchVariant (l : List Char) : Option (List Char) :=
  if l.takeWhile isAsciiDigit = [] then none
  else if (l.dropWhile isAsciiDigit).head? = some (Char.ofNat 41) then
    some (l.dropWhile isAsciiDigit).tail
  else none

/-- JavaScript `word.replace(/\(\d+\)/g, '')`: scan left to right,
removing each variant marker `(digits)`.  Each step consumes at least
one character (`matchVariant_length`), so fuel equal to the input
length always suffices and the fuel case is never reached. -/
def stripVariantFuel : Nat → List Char → List Char
  | 0, l => l
  | _ + 1, [] => []
  | fuel + 1, c :: cs =>
      if c = Char.ofNat 40 then
        match matchVariant cs with
        | some rest => stripVariantFuel fuel rest
        | none => c :: stripVariantFuel fuel cs
      else c :: stripVariantFuel fuel cs

def stripVariant (l : List Char) : List Char :=
  stripVariantFuel l.length l

/-- Embedding of `normalizeWord` in src/kokoro/cmuDictionary.ts.
`Char.toLower` models JavaScript `toLowerCase` (the dictionary keys are
ASCII). -/
def dictNormalizeWord (w : List Char) : List Char :=
  (trimChars ((stripVariant w).map Char.toLower)).filter
    fun c =>
      !(c.toNat = 46 || c.toNat = 44 || c.toNat = 33 || c.toNat = 63 ||
        c.toNat = 59 || c.toNat = 58 || c.toNat = 39 || c.toNat = 34)

abbrev CMUDict : Type := List (List Char × String)

def dictFind (d : CMUDict) (k : List Char) : Option String :=
  (List.find? (fun e => e.1 == k) d).map Prod.snd

def buildDict (raw : List (List Char × String)) : CMUDict :=
  raw.foldl
    (fun acc e =>
      let n := dictNormalizeWord e.1
      if (dictFind acc n).isSome then acc else acc ++ [(n, e.2)])
    ([] : List (List Char × String))

/-- Embedding of `loadCMUDictionary`: returns the mapping, the new cache
state, and whether the raw table was parsed on this call. -/
def loadCMUDictionary (raw : List (List Char × String)) (cache : Option CMUDict) :
    CMUDict × Option CMUDict × Bool :=
  match cache with
  | some d => (d, some d, false)
  | none => (buildDict raw, some (buildDict raw), true)

/-- Embedding of `lookupWord`: loads (or reuses) the dictionary, then
looks up the normalized query. -/
def lookupWord (raw : List (List Char × String)) (cache : Option CMUDict)
    (w : List Char) : Option String × Option CMUDict :=
  let r := loadCMUDictionary raw cache
  (dictFind r.1 (dictNormalizeWord w), r.2.1)

/-! ## Text chunking (KokoroOnnx._chunkText)

The loop slices the text from the current index; it is modelled as a
recursion on the remaining suffix.  `findSentenceEnd` is
`window.search(/[.!?]\s/)`, `lastSpaceIdx` is
`window.lastIndexOf(' ')`, both returning `none` for the JS `-1`.  Each
loop iteration consumes at least one character when `maxLen ≥ 1`, so
fuel equal to the text length suffices. -/

def isSentencePunct (c : Char) : Bool :=
  c.toNat = 46 || c.toNat = 33 || c.toNat = 63

def findSentenceEnd : List Char → Option Nat
  | c :: d :: rest =>
      if isSentencePunct c && isJsWhitespace d then some 0
      else (findSentenceEnd (d :: rest)).map (· + 1)
  | _ => none

def lastSpaceIdx : List Char → Option Nat
  | [] => none
  | c :: cs =>
      match lastSpaceIdx cs with
      | some i => some (i + 1)
      | none => if c = Char.ofNat 32 then some 0 else none

/-- One iteration of the chunking loop in the `remaining > maxLen` case:
returns the raw (untrimmed) chunk and the remaining suffix. -/
def wordOrHardCut (s : List Char) (maxLen : Nat) : List Char × List Char :=
  match lastSpaceIdx (s.take maxLen) with
  | some wb =>
      if 30 < wb then (s.take wb, s.drop (wb + 1))
      else (s.take maxLen, s.drop maxLen)
  | none => (s.take maxLen, s.drop maxLen)

def chunkStep (s : List Char) (maxLen : Nat) : List Char × List Char :=
  match findSentenceEnd (s.take maxLen) with
  | some se =>
      if 50 < se then (s.take (se + 1), s.drop (se + 2))
      else wordOrHardCut s maxLen
  | none => wordOrHardCut s maxLen

def chunkLoopFuel : Nat → List Char → Nat → List (List Char)
  | 0, _, _ => []
  | fuel + 1, s, maxLen =>
      if s = [] then []
      else if s.length ≤ maxLen then [trimChars s]
      else
        trimChars (chunkStep s maxLen).1 ::
          chunkLoopFuel fuel (chunkStep s maxLen).2 maxLen

/-- Embedding of `KokoroOnnx._chunkText`: texts no longer than the
limit are returned unchanged as a single chunk; otherwise the loop
splits at a sentence boundary found past index 50, else at the last
space past index 30, else hard-cuts at the limit, trimming each chunk,
and empty chunks are filtered out at the end. -/
def chunkText (text : List Char) (maxLen : Nat) : List (List Char) :=
  if text.length ≤ maxLen then [text]
  else (chunkLoopFuel text.length text maxLen).filter fun c => decide (0 < c.length)

/-! ## Playback queue and streaming order (KokoroOnnx.streamAudio /
_playNextInQueue)

`audioQueue.push` appends at the tail; `_playNextInQueue` shifts the
head and plays it.  The queue is modelled as a state machine over
abstract chunk indices with push and play events.  In `streamAudio`,
chunk 0 is generated synchronously and pushed first; the remaining
chunks are generated by concurrent fire-and-forget tasks, each pushing
its result when its own generation completes, so pushes happen in
generation-completion order.  Completion order is derived from per-task
latencies by a stable ascending sort (`insertByLat`): the event loop
resolves earlier completions first and ties in task start order. -/

inductive QEvent where
  | push : Nat → QEvent
  | play : QEvent
deriving DecidableEq

structure QState where
  queue : List Nat
  played : List Nat
deriving DecidableEq

def qPush (st : QState) (i : Nat) : QState :=
  { st with queue := st.queue ++ [i] }

def qPlayNext (st : QState) : QState :=
  match st.queue with
  | [] => st
  | x :: rest => { queue := rest, played := st.played ++ [x] }

def qStep (st : QState) : QEvent → QState
  | QEvent.push i => qPush st i
  | QEvent.play => qPlayNext st

def qRun (st : QState) : List QEvent → QState
  | [] => st
  | e :: es => qRun (qStep st e) es

def pushesOf (events : List QEvent) : List Nat :=
  events.filterMap fun e =>
    match e with
    | QEvent.push i => some i
    | QEvent.play => none

/-- Latency of the generation task for chunk `i` (chunks `1, 2, ...`
have latencies `lat[0], lat[1], ...`). -/
def latKey (lat : List Nat) (i : Nat) : Nat :=
  lat.getD (i - 1) 0

def insertByLat (lat : List Nat) (i : Nat) : List Nat → List Nat
  | [] => [i]
  | j :: rest =>
      if latKey lat j ≤ latKey lat i then j :: insertByLat lat i rest
      else i :: j :: rest

/-- The order in which the background generation tasks for chunks
`1..lat.length` complete, given their latencies. -/
def completionOrder (lat : List Nat) : List Nat :=
  (List.range lat.length).foldl (fun acc i => insertByLat lat (i + 1) acc) []

/-- The event trace of one `streamAudio` run: chunk 0 is pushed first
(it is generated synchronously before the background tasks start), the
background tasks push in completion order, and the consume loop
eventually performs enough play steps to drain the queue. -/
def streamTrace (lat : List Nat) : List QEvent :=
  QEvent.push 0 :: ((completionOrder lat).map QEvent.push ++
    List.replicate (lat.length + 1) QEvent.play)

def playedOrder (lat : List Nat) : List Nat :=
  (qRun { queue := [], played := [] } (streamTrace lat)).played

/-- The submission order of the chunks: `0, 1, ..., n`. -/
def submissionOrder (n : Nat) : List Nat :=
  0 :: (List.range n).map (· + 1)

/-! ## Number expansion (numberToWords / convertNumbersToWords in
src/kokoro/phonemics.ts)

`numberToWords` recurses through hundred/thousand/million/billion
groups; the recursion divides its argument by at least 10 at every
nested call, so a fuel of 20 covers every JavaScript number.  The
regex `/(-?\d{1,3}(?:,\d{3})*(?:\.\d+)?)/g` of `convertNumbersToWords`
is modelled by a deterministic scanner: this regex never needs
backtracking (each optional part is followed only by optional parts). -/

def ONES : List String :=
  ["", "one", "two", "three", "four", "five", "six", "seven", "eight", "nine"]

def TEENS : List String :=
  ["ten", "eleven", "twelve", "thirteen", "fourteen", "fifteen", "sixteen",
   "seventeen", "eighteen", "nineteen"]

def TENS : List String :=
  ["", "", "twenty", "thirty", "forty", "fifty", "sixty", "seventy", "eighty",
   "ninety"]

def numberToWordsFuel : Nat → Nat → String
  | 0, _ => ""
  | fuel + 1, num =>
      if num = 0 then "zero"
      else if num < 10 then ONES.getD num ""
      else if num < 20 then TEENS.getD (num - 10) ""
      else if num < 100 then
        TENS.getD (num / 10) "" ++
          (if num % 10 > 0 then "-" ++ ONES.getD (num % 10) "" else "")
      else if num < 1000 then
        ONES.getD (num / 100) "" ++ " hundred" ++
          (if num % 100 > 0 then " " ++ numberToWordsFuel fuel (num % 100) else "")
      else if num < 1000000 then
        numberToWordsFuel fuel (num / 1000) ++ " thousand" ++
          (if num % 1000 > 0 then " " ++ numberToWordsFuel fuel (num % 1000) else "")
      else if num < 1000000000 then
        numberToWordsFuel fuel (num / 1000000) ++ " million" ++
          (if num % 1000000 > 0 then
            " " ++ numberToWordsFuel fuel (num % 1000000) else "")
      else
        numberToWordsFuel fuel (num / 1000000000) ++ " billion" ++
          (if num % 1000000000 > 0 then
            " " ++ numberToWordsFuel fuel (num % 1000000000) else "")

def numberToWords (num : Int) : String :=
  if num < 0 then "negative " ++ numberToWordsFuel 20 (-num).toNat
  else numberToWordsFuel 20 num.toNat

/-! ### The regex scanner of convertNumbersToWords -/

def isDigitChar (c : Char) : Bool :=
  48 ≤ c.toNat && c.toNat ≤ 57

/-- Greedily take up to `k` leading digits. -/
def takeDigits : Nat → List Char → List Char × List Char
  | _, [] => ([], [])
  | 0, l => ([], l)
  | k + 1, c :: cs =>
      if isDigitChar c then
        let p := takeDigits k cs
        (c :: p.1, p.2)
      else ([], c :: cs)

/-- The `(?:,\d{3})*` part: consume comma-plus-exactly-three-digit
groups as long as they match. -/
def takeCommaGroupsFuel : Nat → List Char → List Char × List Char
  | 0, l => ([], l)
  | fuel + 1, l =>
      match l with
      | c :: rest =>
          if c = Char.ofNat 44 then
            let p := takeDigits 3 rest
            if p.1.length = 3 then
              let q := takeCommaGroupsFuel fuel p.2
              (c :: (p.1 ++ q.1), q.2)
            else ([], l)
          else ([], l)
      | [] => ([], [])

/-- The `(?:\.\d+)?` part: a dot followed by at least one digit. -/
def takeDecimalPart : List Char → List Char × List Char
  | [] => ([], [])
  | c :: rest =>
      if c = Char.ofNat 46 then
        if rest.takeWhile isDigitChar = [] then ([], c :: rest)
        else (c :: rest.takeWhile isDigitChar, rest.dropWhile isDigitChar)
      else ([], c :: rest)

/-- Try to match `-?\d{1,3}(?:,\d{3})*(?:\.\d+)?` at the start of the
list; on success return the matched text and the remainder. -/
def matchNumberAt (l : List Char) : Option (List Char × List Char) :=
  match l with
  | [] => none
  | c :: rest =>
      if c = Char.ofNat 45 then
        let p := takeDigits 3 rest
        if p.1 = [] then none
        else
          let q := takeCommaGroupsFuel rest.length p.2
          let r := takeDecimalPart q.2
          some (c :: (p.1 ++ q.1 ++ r.1), r.2)
      else if isDigitChar c then
        let p := takeDigits 3 (c :: rest)
        let q := takeCommaGroupsFuel l.length p.2
        let r := takeDecimalPart q.2
        some (p.1 ++ q.1 ++ r.1, r.2)
      else none

def parseNatDigits (ds : List Char) : Nat :=
  ds.foldl (fun acc c => acc * 10 + (c.toNat - 48)) 0

/-- JavaScript `parseInt` on the de-comma'd match (an optional sign
followed by digits). -/
def parseIntNumStr (l : List Char) : Int :=
  if l.head? = some (Char.ofNat 45) then -(parseNatDigits l.tail : Int)
  else (parseNatDigits l : Int)

/-- The digit-by-digit reading of the decimal part:
`digit === 0 ? 'zero' : ONES[digit]`. -/
def decDigitWord (c : Char) : String :=
  if c.toNat = 48 then "zero" else ONES.getD (c.toNat - 48) ""

/-- The replacement callback of `convertNumbersToWords` applied to one
regex match.  `numStr` is the match with commas removed; on a decimal
the integer part is read with `parseInt` and the decimal part digit by
digit. -/
def numberExpansionOf (numStr : List Char) : String :=
  if numStr.contains (Char.ofNat 46) then
    numberToWords (parseIntNumStr
        (numStr.takeWhile fun c => !(c = Char.ofNat 46))) ++ " point " ++
      String.intercalate " "
        (((numStr.dropWhile fun c => !(c = Char.ofNat 46)).tail).map decDigitWord)
  else
    numberToWords (parseIntNumStr numStr)

def numberExpansion (m : List Char) : String :=
  numberExpansionOf (m.filter fun c => !(c = Char.ofNat 44))

/-- The global-replace scan of `convertNumbersToWords`: at each
position, if the number regex matches, emit the expansion and continue
after the match, else keep the character. -/
def convertAux : Nat → List Char → List Char
  | 0, l => l
  | fuel + 1, [] => []
  | fuel + 1, c :: rest =>
      match matchNumberAt (c :: rest) with
      | some (m, r) => (numberExpansion m).data ++ convertAux fuel r
      | none => c :: convertAux fuel rest

def convertNumbersToWords (text : String) : String :=
  ⟨convertAux text.data.length text.data⟩

/-! ### The spec-side oracle: re-parsing an English number word sequence

Modelled from the spec: section 8 asks that the produced word sequence
"re-parses (informally, by a human/oracle)" to the original integer.
The oracle assigns each ones/teens/tens word its value and adds it to a
running group, multiplies the group by 100 at "hundred", and closes the
group at "thousand"/"million"/"billion" with the corresponding scale;
the denoted integer is the closed total plus the open group.  Words are
separated by spaces or hyphens. -/

def smallValueTable : List (String × Nat) :=
  [("zero", 0), ("one", 1), ("two", 2), ("three", 3), ("four", 4), ("five", 5),
   ("six", 6), ("seven", 7), ("eight", 8), ("nine", 9), ("ten", 10),
   ("eleven", 11), ("twelve", 12), ("thirteen", 13), ("fourteen", 14),
   ("fifteen", 15), ("sixteen", 16), ("seventeen", 17), ("eighteen", 18),
   ("nineteen", 19), ("twenty", 20), ("thirty", 30), ("forty", 40),
   ("fifty", 50), ("sixty", 60), ("seventy", 70), ("eighty", 80),
   ("ninety", 90)]

def smallValue (w : List Char) : Option Nat :=
  (smallValueTable.find? fun e => e.1.data == w).map Prod.snd

structure PState where
  total : Nat
  current : Nat
deriving DecidableEq

def stepWordAux (st : PState) (w : List Char) : Option Nat → PState
  | some v => { st with current := st.current + v }
  | none =>
      if w = "hundred".data then { st with current := st.current * 100 }
      else if w = "thousand".data then
        { total := st.total + st.current * 1000, current := 0 }
      else if w = "million".data then
        { total := st.total + st.current * 1000000, current := 0 }
      else if w = "billion".data then
        { total := st.total + st.current * 1000000000, current := 0 }
      else st

def stepWord (st : PState) (w : List Char) : PState :=
  stepWordAux st w (smallValue w)

/-- Split into words at spaces and hyphens (both separate words in the
produced sequences, e.g. "forty-two"). -/
def splitWordsAux : List Char → List Char → List (List Char)
  | [], acc => if acc = [] then [] else [acc.reverse]
  | c :: cs, acc =>
      if c = Char.ofNat 32 ∨ c = Char.ofNat 45 then
        if acc = [] then splitWordsAux cs []
        else acc.reverse :: splitWordsAux cs []
      else splitWordsAux cs (c :: acc)

def wordsToNumber (s : String) : Nat :=
  let st := (splitWordsAux s.data []).foldl stepWord ⟨0, 0⟩
  st.total + st.current

/-- The sum of the `smallValue`s of a word list, if every word has one
(used to treat a run of purely additive words at once). -/
def addValuesOnly : List (List Char) → Option Nat
  | [] => some 0
  | w :: ws =>
      match smallValue w with
      | none => none
      | some v => (addValuesOnly ws).map (v + ·)

/-! ## Theorems -/

theorem length_dropWhile_le_self (p : Char → Bool) (l : List Char) :
    (l.dropWhile p).length ≤ l.length := by
  induction l with
  | nil => simp
  | cons c cs ih =>
      cases hc : p c
      · simp [List.dropWhile_cons, hc]
      · simp only [List.dropWhile_cons, hc, if_true, List.length_cons]
        omega

theorem matchVariant_length (l rest : List Char) (h : matchVariant l = some rest) :
    rest.length < l.length := by
  unfold matchVariant at h
  by_cases ht : l.takeWhile isAsciiDigit = []
  · rw [if_pos ht] at h
    exact absurd h (by simp)
  · rw [if_neg ht] at h
    by_cases hh : (l.dropWhile isAsciiDigit).head? = some (Char.ofNat 41)
    · rw [if_pos hh] at h
      have h1 : rest = (l.dropWhile isAsciiDigit).tail := by
        simpa using h.symm
      have h2 : (l.dropWhile isAsciiDigit).length ≤ l.length :=
        length_dropWhile_le_self _ _
      have h3 : l.dropWhile isAsciiDigit ≠ [] := by
        intro hnil
        rw [hnil] at hh
        exact absurd hh (by simp)
      have h4 : (l.dropWhile isAsciiDigit).length ≠ 0 := by
        simpa [List.length_eq_zero] using h3
      subst h1
      rw [List.length_tail]
      omega
    · rw [if_neg hh] at h
      exact absurd h (by simp)

theorem length_flatMap_int16Bytes (l : List ℤ) :
    (l.flatMap int16Bytes).length = 2 * l.length := by
  induction l with
  | nil => simp
  | cons x xs ih =>
      simp [int16Bytes, le16u] at ih ⊢
      omega

/-- C3 counterexample: the encoder uses `Math.floor`, not `round`.  A
sample of exactly `-1.0` encodes to `-32767`, not `-32768` as the claim
states, and at `0.5` the encoder disagrees with the claimed
`round(s * 32767)` formula. -/
theorem C3_counterexample :
    floatToInt16 (-1) = -32767 ∧ floatToInt16 (-1) ≠ -32768 ∧
    floatToInt16 (1 / 2) = 16383 ∧ floatToInt16 (1 / 2) ≠ round ((1 / 2 : ℚ) * 32767) := by
  refine ⟨?_, ?_, ?_, ?_⟩ <;> norm_num [floatToInt16, round_eq]

/-- C3 amended: each float sample `s` is encoded as
`floor(s * 32767)` clamped to `[-32768, 32767]`; a sample of exactly
`1.0` encodes to `32767`, a sample of exactly `-1.0` encodes to
`-32767`, for in-range samples the clamp never engages (all values lie
in `[-32767, 32767]`), and the produced WAV buffer is the 44-byte
header followed by two bytes per sample. -/
theorem C3_amended :
    floatToInt16 1 = 32767 ∧ floatToInt16 (-1) = -32767 ∧
    (∀ s : ℚ, -1 ≤ s → s ≤ 1 →
      floatToInt16 s = ⌊s * 32767⌋ ∧ -32767 ≤ floatToInt16 s ∧ floatToInt16 s ≤ 32767) ∧
    (∀ (xs : List ℚ) (sampleRate : Nat),
      (floatArrayToWav xs sampleRate).length = 44 + 2 * xs.length) := by
  refine ⟨by norm_num [floatToInt16], by norm_num [floatToInt16], ?_, ?_⟩
  · intro s h1 h2
    have hlo : (-32767 : ℤ) ≤ ⌊s * 32767⌋ := by
      rw [Int.le_floor]
      push_cast
      nlinarith
    have hhi : ⌊s * 32767⌋ ≤ 32767 := by
      have : s * 32767 ≤ (32767 : ℚ) := by nlinarith
      calc ⌊s * 32767⌋ ≤ ⌊(32767 : ℚ)⌋ := Int.floor_le_floor this
        _ = 32767 := by norm_num
    refine ⟨?_, ?_, ?_⟩
    · simp only [floatToInt16]
      rw [min_eq_right hhi, max_eq_right (by omega)]
    · simp only [floatToInt16]
      rw [min_eq_right hhi, max_eq_right (by omega)]
      exact hlo
    · simp only [floatToInt16]
      rw [min_eq_right hhi, max_eq_right (by omega)]
      exact hhi
  · intro xs sampleRate
    have h := length_flatMap_int16Bytes (xs.map floatToInt16)
    have hh : (wavHeader sampleRate (2 * xs.length)).length = 44 := by
      simp [wavHeader, le16u, le32u]
    simp only [floatArrayToWav, List.length_append, h, List.length_map, hh]

/-- C3 amended witness at concrete inputs. -/
theorem C3_amended_witness :
    floatToInt16 (1 / 2) = ⌊((1 : ℚ) / 2) * 32767⌋ ∧
    (floatArrayToWav [1, -1] 24000).length = 44 + 2 * 2 :=
  ⟨(C3_amended.2.2.1 (1 / 2) (by norm_num) (by norm_num)).1,
   C3_amended.2.2.2 [1, -1] 24000⟩

/-- C9: `stopStreaming` is idempotent, and on a state where nothing is
streaming it is the identity (safe to call, leaves the streaming fields
unchanged; it is a total function, so it never throws). -/
theorem C9_stopStreaming_idempotent (s : KokoroState) :
    stopStreaming (stopStreaming s) = stopStreaming s ∧
    (streamingIdle s → stopStreaming s = s) := by
  constructor
  · rfl
  · intro h
    obtain ⟨h1, h2, h3, h4, h5, h6, h7, h8⟩ := h
    cases s
    simp_all [stopStreaming]

/-- C9 witness: `stopStreaming` on a concrete idle state. -/
theorem C9_stopStreaming_idempotent_witness :
    stopStreaming (stopStreaming
      (KokoroState.mk none false true none false none 0 0 "" [] false none)) =
      stopStreaming (KokoroState.mk none false true none false none 0 0 "" [] false none) ∧
    stopStreaming (KokoroState.mk none false true none false none 0 0 "" [] false none) =
      KokoroState.mk none false true none false none 0 0 "" [] false none :=
  ⟨(C9_stopStreaming_idempotent _).1,
   (C9_stopStreaming_idempotent _).2 ⟨rfl, rfl, rfl, rfl, rfl, rfl, rfl, rfl⟩⟩

/-- C7: calling `generateAudio` with no model loaded (on a platform
where the runtime is available) rejects with the "model not loaded"
error and produces an empty effect trace: in particular the inference
session is never invoked and no tensors are built. -/
theorem C7_generateAudio_model_not_loaded
    (s : KokoroState) (text voiceId : String) (speed : ℚ)
    (hAvail : s.isOnnxAvailable = true) (hLoaded : s.isModelLoaded = false) :
    generateAudio s text voiceId speed =
      ([], Except.error "Model not loaded. Call loadModel() first.") ∧
    GenEffect.runInference ∉ (generateAudio s text voiceId speed).1 ∧
    GenEffect.buildTensors ∉ (generateAudio s text voiceId speed).1 := by
  simp [generateAudio, hAvail, hLoaded]

/-- C7 witness: a concrete fresh state with the model not loaded. -/
theorem C7_generateAudio_model_not_loaded_witness :
    generateAudio (KokoroState.mk none false true none false none 0 0 "" [] false none)
        "hello" "af_heart" 1 =
      ([], Except.error "Model not loaded. Call loadModel() first.") :=
  (C7_generateAudio_model_not_loaded
    (KokoroState.mk none false true none false none 0 0 "" [] false none)
    "hello" "af_heart" 1 rfl rfl).1

/-- C4: for every phoneme string, the token list starts and ends with
the sentinel 0, has length at most the phoneme string's length plus 2,
every token is a valid vocabulary code, and every non-sentinel token
comes from a character of the phoneme string (characters not in the
vocabulary are dropped, never inserted). -/
theorem C4_tokenize (phonemes : List Char) :
    (tokenize phonemes).head? = some 0 ∧
    (tokenize phonemes).getLast? = some 0 ∧
    (tokenize phonemes).length ≤ phonemes.length + 2 ∧
    (∀ t ∈ tokenize phonemes, ∃ c, vocabIndex c = some t) ∧
    (∀ t ∈ ((tokenize phonemes).drop 1).dropLast, ∃ c ∈ phonemes, vocabIndex c = some t) := by
  have hform : tokenize phonemes = (0 :: phonemes.filterMap vocabIndex).concat 0 := by
    simp [tokenize]
  refine ⟨rfl, ?_, ?_, ?_, ?_⟩
  · rw [hform, List.concat_eq_append, List.getLast?_concat]
  · have := List.length_filterMap_le vocabIndex phonemes
    simp [tokenize]
    omega
  · intro t ht
    simp [tokenize] at ht
    rcases ht with ht | ht | ht
    · exact ⟨Char.ofNat 36, by rw [ht]; decide⟩
    · rcases ht with ⟨c, _, hc⟩
      exact ⟨c, hc⟩
    · exact ⟨Char.ofNat 36, by rw [ht]; decide⟩
  · intro t ht
    have hdrop : ((tokenize phonemes).drop 1).dropLast = phonemes.filterMap vocabIndex := by
      rw [hform]
      simp [List.dropLast_concat]
    rw [hdrop] at ht
    rcases List.mem_filterMap.mp ht with ⟨c, hcmem, hc⟩
    exact ⟨c, hcmem, hc⟩

/-- C6: the effective token count used for the style-vector offset is
`clamp(tokenCount - 2, 0, MAX_PHONEME_LENGTH - 1)`, and for a voice
style table covering the model's maximum context the sliced style
vector has length exactly `STYLE_DIM = 256` regardless of the chunk's
token count, its entries being the table entries starting at the
computed offset. -/
theorem C6_styleVector (voiceData : List ℚ) (tokensLength : Nat)
    (hlen : MAX_PHONEME_LENGTH * STYLE_DIM ≤ voiceData.length) :
    (styleVector voiceData tokensLength).length = STYLE_DIM ∧
    ∀ i, i < STYLE_DIM →
      (styleVector voiceData tokensLength)[i]? =
        voiceData[(effectiveTokenCount tokensLength).toNat * STYLE_DIM + i]? := by
  have hbound : (effectiveTokenCount tokensLength).toNat ≤ MAX_PHONEME_LENGTH - 1 := by
    simp only [effectiveTokenCount, MAX_PHONEME_LENGTH]
    omega
  have hoff : (effectiveTokenCount tokensLength).toNat * STYLE_DIM + STYLE_DIM ≤
      voiceData.length := by
    have h1 : (effectiveTokenCount tokensLength).toNat * STYLE_DIM ≤
        (MAX_PHONEME_LENGTH - 1) * STYLE_DIM := Nat.mul_le_mul_right _ hbound
    have h2 : (MAX_PHONEME_LENGTH - 1) * STYLE_DIM + STYLE_DIM = MAX_PHONEME_LENGTH * STYLE_DIM := by
      simp [MAX_PHONEME_LENGTH, STYLE_DIM]
    omega
  constructor
  · simp only [styleVector, List.length_take, List.length_drop]
    omega
  · intro i hi
    simp only [styleVector, List.getElem?_take, List.getElem?_drop]
    rw [if_pos hi]

/-- C6 witness: a style table of exactly the maximum-context size. -/
theorem C6_styleVector_witness :
    (styleVector (List.replicate (MAX_PHONEME_LENGTH * STYLE_DIM) (0 : ℚ)) 5).length =
      STYLE_DIM :=
  (C6_styleVector (List.replicate (MAX_PHONEME_LENGTH * STYLE_DIM) (0 : ℚ)) 5
    (by simp)).1

/-! ### Helper lemmas for text normalization -/

theorem noWsRun_cons (x : Char) (l : List Char) :
    noWsRun (x :: l) = (!(isJsWhitespace x && headWs l) && noWsRun l) := by
  cases l with
  | nil => simp [noWsRun, headWs]
  | cons d rest => simp [noWsRun, headWs, Bool.not_and]

theorem headWs_append (X Y : List Char) (h : X ≠ []) : headWs (X ++ Y) = headWs X := by
  cases X with
  | nil => exact absurd rfl h
  | cons a t => simp [headWs]

theorem lastWs_append (X Y : List Char) (h : Y ≠ []) : lastWs (X ++ Y) = lastWs Y := by
  unfold lastWs
  rw [List.reverse_append]
  exact headWs_append _ _ (by simp [h])

theorem lastWs_cons_of_ne (c : Char) (cs : List Char) (h : cs ≠ []) :
    lastWs (c :: cs) = lastWs cs :=
  lastWs_append [c] cs h

theorem lastWs_singleton (c : Char) : lastWs [c] = isJsWhitespace c := rfl

theorem headWs_dropWhile (l : List Char) :
    headWs (l.dropWhile isJsWhitespace) = false := by
  induction l with
  | nil => rfl
  | cons c cs ih =>
      cases hc : isJsWhitespace c with
      | true => simpa [List.dropWhile_cons, hc] using ih
      | false => simp [List.dropWhile_cons, hc, headWs]

theorem lastWs_dropWhile :
    ∀ l : List Char, lastWs l = false → lastWs (l.dropWhile isJsWhitespace) = false := by
  intro l
  induction l with
  | nil => intro _; rfl
  | cons c cs ih =>
      intro h
      cases hc : isJsWhitespace c with
      | false => simpa [List.dropWhile_cons, hc] using h
      | true =>
          cases cs with
          | nil => simp [List.dropWhile_cons, hc, lastWs, headWs]
          | cons d t =>
              rw [lastWs_cons_of_ne _ _ (by simp)] at h
              simpa [List.dropWhile_cons, hc] using ih h

theorem dropWhile_eq_self_of_headWs (l : List Char) (h : headWs l = false) :
    l.dropWhile isJsWhitespace = l := by
  cases l with
  | nil => rfl
  | cons c cs =>
      have hc : isJsWhitespace c = false := by simpa [headWs] using h
      simp [List.dropWhile_cons, hc]

theorem headWs_trim (l : List Char) : headWs (trimChars l) = false := by
  unfold trimChars
  have hrev : lastWs ((l.dropWhile isJsWhitespace).reverse) = false := by
    unfold lastWs
    rw [List.reverse_reverse]
    exact headWs_dropWhile l
  exact lastWs_dropWhile _ hrev

theorem lastWs_trim (l : List Char) : lastWs (trimChars l) = false := by
  unfold trimChars lastWs
  rw [List.reverse_reverse]
  exact headWs_dropWhile _

theorem trim_eq_self (l : List Char) (h1 : headWs l = false) (h2 : lastWs l = false) :
    trimChars l = l := by
  unfold trimChars
  unfold lastWs at h2
  rw [dropWhile_eq_self_of_headWs l h1, dropWhile_eq_self_of_headWs l.reverse h2,
    List.reverse_reverse]

theorem headWs_collapse_true (l : List Char) :
    headWs (collapseWsAux true l) = false := by
  induction l with
  | nil => rfl
  | cons c cs ih =>
      cases hc : isJsWhitespace c with
      | true => simpa [collapseWsAux, hc] using ih
      | false => simp [collapseWsAux, hc, headWs]

theorem headWs_collapse_false (l : List Char) (h : headWs l = false) :
    headWs (collapseWsAux false l) = false := by
  cases l with
  | nil => rfl
  | cons c cs =>
      have hc : isJsWhitespace c = false := by simpa [headWs] using h
      simp [collapseWsAux, hc, headWs]

theorem noWsRun_collapse :
    ∀ (l : List Char) (b : Bool), noWsRun (collapseWsAux b l) = true := by
  intro l
  induction l with
  | nil => intro b; rfl
  | cons c cs ih =>
      intro b
      cases hc : isJsWhitespace c with
      | true =>
          cases b with
          | true => simpa [collapseWsAux, hc] using ih true
          | false =>
              have hrw : collapseWsAux false (c :: cs) =
                  Char.ofNat 32 :: collapseWsAux true cs := by
                simp [collapseWsAux, hc]
              rw [hrw, noWsRun_cons, headWs_collapse_true cs, ih true]
              simp
      | false =>
          have hrw : collapseWsAux b (c :: cs) = c :: collapseWsAux false cs := by
            cases b <;> simp [collapseWsAux, hc]
          rw [hrw, noWsRun_cons, ih false]
          simp [hc]

theorem wsOnlySpace_collapse :
    ∀ (l : List Char) (b : Bool), wsOnlySpace (collapseWsAux b l) = true := by
  intro l
  induction l with
  | nil => intro b; rfl
  | cons c cs ih =>
      intro b
      cases hc : isJsWhitespace c with
      | true =>
          cases b with
          | true => simpa [collapseWsAux, hc] using ih true
          | false =>
              have hrw : collapseWsAux false (c :: cs) =
                  Char.ofNat 32 :: collapseWsAux true cs := by
                simp [collapseWsAux, hc]
              rw [hrw, wsOnlySpace, List.all_cons]
              have := ih true
              rw [wsOnlySpace] at this
              simp [this]
      | false =>
          have hrw : collapseWsAux b (c :: cs) = c :: collapseWsAux false cs := by
            cases b <;> simp [collapseWsAux, hc]
          rw [hrw, wsOnlySpace, List.all_cons]
          have := ih false
          rw [wsOnlySpace] at this
          simp [this, hc]

theorem collapse_false_cons_ne_nil (d : Char) (t : List Char) :
    collapseWsAux false (d :: t) ≠ [] := by
  cases hd : isJsWhitespace d <;> simp [collapseWsAux, hd]

theorem exists_nonWs_of_lastWs :
    ∀ l : List Char, l ≠ [] → lastWs l = false → ∃ c ∈ l, isJsWhitespace c = false := by
  intro l
  induction l with
  | nil => intro h; exact absurd rfl h
  | cons c cs ih =>
      intro _ h
      cases cs with
      | nil => exact ⟨c, by simp, h⟩
      | cons d t =>
          rw [lastWs_cons_of_ne _ _ (by simp)] at h
          rcases ih (by simp) h with ⟨x, hx, hxw⟩
          exact ⟨x, by simp [hx], hxw⟩

theorem collapse_ne_nil :
    ∀ (l : List Char) (b : Bool), (∃ c ∈ l, isJsWhitespace c = false) →
      collapseWsAux b l ≠ [] := by
  intro l
  induction l with
  | nil => intro b h; rcases h with ⟨c, hc, _⟩; exact absurd hc (by simp)
  | cons c cs ih =>
      intro b h
      cases hc : isJsWhitespace c with
      | false => cases b <;> simp [collapseWsAux, hc]
      | true =>
          have hcs : ∃ x ∈ cs, isJsWhitespace x = false := by
            rcases h with ⟨x, hx, hxw⟩
            rcases List.mem_cons.mp hx with rfl | hx2
            · rw [hc] at hxw; exact absurd hxw (by simp)
            · exact ⟨x, hx2, hxw⟩
          cases b with
          | true => simpa [collapseWsAux, hc] using ih true hcs
          | false => simp [collapseWsAux, hc]

theorem lastWs_collapse :
    ∀ l : List Char, lastWs l = false → ∀ b : Bool,
      lastWs (collapseWsAux b l) = false := by
  intro l
  induction l with
  | nil => intro _ b; rfl
  | cons c cs ih =>
      intro h b
      cases hc : isJsWhitespace c with
      | false =>
          have hrw : collapseWsAux b (c :: cs) = c :: collapseWsAux false cs := by
            cases b <;> simp [collapseWsAux, hc]
          rw [hrw]
          cases cs with
          | nil => simpa [collapseWsAux, lastWs_singleton] using h
          | cons d t =>
              rw [lastWs_cons_of_ne _ _ (by simp)] at h
              rw [lastWs_cons_of_ne _ _ (collapse_false_cons_ne_nil d t)]
              exact ih h false
      | true =>
          cases cs with
          | nil =>
              have h2 : isJsWhitespace c = false := h
              rw [hc] at h2
              exact Bool.noConfusion h2
          | cons d t =>
              rw [lastWs_cons_of_ne _ _ (by simp)] at h
              cases b with
              | true => simpa [collapseWsAux, hc] using ih h true
              | false =>
                  have hne : collapseWsAux true (d :: t) ≠ [] :=
                    collapse_ne_nil (d :: t) true
                      (exists_nonWs_of_lastWs (d :: t) (by simp) h)
                  have hrw : collapseWsAux false (c :: d :: t) =
                      Char.ofNat 32 :: collapseWsAux true (d :: t) := by
                    simp [collapseWsAux, hc]
                  rw [hrw, lastWs_cons_of_ne _ _ hne]
                  exact ih h true

theorem collapse_true_eq_false_of_headWs (l : List Char) (h : headWs l = false) :
    collapseWsAux true l = collapseWsAux false l := by
  cases l with
  | nil => rfl
  | cons c cs =>
      have hc : isJsWhitespace c = false := by simpa [headWs] using h
      simp [collapseWsAux, hc]

theorem collapse_eq_self :
    ∀ l : List Char, wsOnlySpace l = true → noWsRun l = true →
      collapseWsAux false l = l := by
  intro l
  induction l with
  | nil => intro _ _; rfl
  | cons c cs ih =>
      intro hs hr
      have hs2 : wsOnlySpace cs = true := by
        rw [wsOnlySpace, List.all_cons] at hs
        exact (Bool.and_eq_true_iff.mp hs).2
      have hr2 : noWsRun cs = true := by
        rw [noWsRun_cons] at hr
        exact (Bool.and_eq_true_iff.mp hr).2
      cases hc : isJsWhitespace c with
      | false => simp [collapseWsAux, hc, ih hs2 hr2]
      | true =>
          have hsp : c = Char.ofNat 32 := by
            rw [wsOnlySpace, List.all_cons] at hs
            have := (Bool.and_eq_true_iff.mp hs).1
            rw [hc] at this
            simpa using this
          have hhd : headWs cs = false := by
            rw [noWsRun_cons] at hr
            have := (Bool.and_eq_true_iff.mp hr).1
            rw [hc] at this
            simpa using this
          have hrw : collapseWsAux false (c :: cs) =
              Char.ofNat 32 :: collapseWsAux true cs := by
            simp [collapseWsAux, hc]
          rw [hrw, collapse_true_eq_false_of_headWs cs hhd, ih hs2 hr2, ← hsp]

theorem ws_replaceQuotes (c : Char) :
    isJsWhitespace (replaceQuotes c) = isJsWhitespace c := by
  have h39 : isJsWhitespace (Char.ofNat 39) = false := by decide
  have h34 : isJsWhitespace (Char.ofNat 34) = false := by decide
  unfold replaceQuotes
  split
  · next h => rw [h39]; rcases h with h | h <;> simp [isJsWhitespace, h]
  · split
    · next h => rw [h34]; rcases h with h | h <;> simp [isJsWhitespace, h]
    · rfl

theorem replaceQuotes_eq_self (c : Char) (h1 : c.toNat ≠ 8216) (h2 : c.toNat ≠ 8217)
    (h3 : c.toNat ≠ 8220) (h4 : c.toNat ≠ 8221) : replaceQuotes c = c := by
  simp [replaceQuotes, h1, h2, h3, h4]

theorem headWs_map_replaceQuotes (l : List Char) :
    headWs (l.map replaceQuotes) = headWs l := by
  cases l with
  | nil => rfl
  | cons c cs => simp [headWs, ws_replaceQuotes]

theorem lastWs_map_replaceQuotes (l : List Char) :
    lastWs (l.map replaceQuotes) = lastWs l := by
  unfold lastWs
  rw [← List.map_reverse]
  exact headWs_map_replaceQuotes l.reverse

theorem noWsRun_map_replaceQuotes :
    ∀ l : List Char, noWsRun l = true → noWsRun (l.map replaceQuotes) = true := by
  intro l
  induction l with
  | nil => intro _; rfl
  | cons c cs ih =>
      intro h
      rw [noWsRun_cons] at h
      rcases Bool.and_eq_true_iff.mp h with ⟨h1, h2⟩
      rw [List.map_cons, noWsRun_cons, headWs_map_replaceQuotes, ws_replaceQuotes,
        h1, ih h2]
      rfl

theorem wsOnlySpace_map_replaceQuotes :
    ∀ l : List Char, wsOnlySpace l = true → wsOnlySpace (l.map replaceQuotes) = true := by
  intro l
  induction l with
  | nil => intro _; rfl
  | cons c cs ih =>
      intro h
      rw [wsOnlySpace, List.all_cons] at h
      rcases Bool.and_eq_true_iff.mp h with ⟨h1, h2⟩
      rw [List.map_cons, wsOnlySpace, List.all_cons]
      have hcs := ih h2
      rw [wsOnlySpace] at hcs
      rw [hcs]
      cases hc : isJsWhitespace c with
      | false => simp [ws_replaceQuotes, hc]
      | true =>
          rw [hc] at h1
          have hsp : c = Char.ofNat 32 := by simpa using h1
          subst hsp
          simp [replaceQuotes]

theorem noCurlyQuotes_map_replaceQuotes (l : List Char) :
    noCurlyQuotes (l.map replaceQuotes) = true := by
  induction l with
  | nil => rfl
  | cons c cs ih =>
      rw [List.map_cons, noCurlyQuotes, List.all_cons]
      rw [noCurlyQuotes] at ih
      rw [ih]
      unfold replaceQuotes
      split
      · decide
      · split
        · decide
        · next h1 h2 =>
            simp only [not_or] at h1 h2
            simp [h1.1, h1.2, h2.1, h2.2]

theorem expand_cons (c : Char) (cs : List Char) :
    expandEllipsis (c :: cs) =
      (if c.toNat = 8230 then [Char.ofNat 46, Char.ofNat 46, Char.ofNat 46] else [c]) ++
        expandEllipsis cs := by
  simp [expandEllipsis]

theorem expand_ne_nil (l : List Char) (h : l ≠ []) : expandEllipsis l ≠ [] := by
  cases l with
  | nil => exact absurd rfl h
  | cons c cs =>
      rw [expand_cons]
      split <;> simp

theorem ws_dot : isJsWhitespace (Char.ofNat 46) = false := by decide

theorem ws_of_ellipsisCode (c : Char) (h : c.toNat = 8230) :
    isJsWhitespace c = false := by
  simp [isJsWhitespace, h]

theorem headWs_expand (l : List Char) : headWs (expandEllipsis l) = headWs l := by
  cases l with
  | nil => rfl
  | cons c cs =>
      rw [expand_cons]
      by_cases h : c.toNat = 8230
      · rw [if_pos h]
        simp [headWs, ws_dot, ws_of_ellipsisCode c h]
      · rw [if_neg h]
        simp [headWs]

theorem lastWs_expand : ∀ l : List Char, lastWs (expandEllipsis l) = lastWs l := by
  intro l
  induction l with
  | nil => rfl
  | cons c cs ih =>
      rw [expand_cons]
      cases cs with
      | nil =>
          by_cases h : c.toNat = 8230
          · rw [if_pos h]
            simp only [List.append_nil, expandEllipsis, List.flatMap_nil]
            rw [show lastWs [Char.ofNat 46, Char.ofNat 46, Char.ofNat 46] =
                isJsWhitespace (Char.ofNat 46) from rfl]
            rw [lastWs_singleton, ws_dot, ws_of_ellipsisCode c h]
          · rw [if_neg h]
            simp [expandEllipsis]
      | cons d t =>
          have hne : expandEllipsis (d :: t) ≠ [] := expand_ne_nil _ (by simp)
          rw [lastWs_append _ _ hne, ih]
          exact (lastWs_cons_of_ne c (d :: t) (by simp)).symm

theorem noWsRun_expand :
    ∀ l : List Char, noWsRun l = true → noWsRun (expandEllipsis l) = true := by
  intro l
  induction l with
  | nil => intro _; rfl
  | cons c cs ih =>
      intro h
      rw [noWsRun_cons] at h
      rcases Bool.and_eq_true_iff.mp h with ⟨h1, h2⟩
      rw [expand_cons]
      by_cases hc : c.toNat = 8230
      · rw [if_pos hc]
        simp only [List.cons_append, List.nil_append]
        rw [noWsRun_cons, noWsRun_cons, noWsRun_cons, ws_dot, ih h2]
        simp
      · rw [if_neg hc]
        simp only [List.cons_append, List.nil_append]
        rw [noWsRun_cons, headWs_expand, ih h2, h1]
        rfl

theorem wsOnlySpace_expand :
    ∀ l : List Char, wsOnlySpace l = true → wsOnlySpace (expandEllipsis l) = true := by
  intro l
  induction l with
  | nil => intro _; rfl
  | cons c cs ih =>
      intro h
      rw [wsOnlySpace, List.all_cons] at h
      rcases Bool.and_eq_true_iff.mp h with ⟨h1, h2⟩
      have hcs := ih h2
      rw [wsOnlySpace] at hcs
      rw [expand_cons]
      by_cases hc : c.toNat = 8230
      · rw [if_pos hc]
        simp only [List.cons_append, List.nil_append, wsOnlySpace, List.all_cons]
        rw [hcs, ws_dot]
        simp
      · rw [if_neg hc]
        simp only [List.cons_append, List.nil_append, wsOnlySpace, List.all_cons]
        rw [hcs, h1]
        rfl

theorem noEllipsis_expand (l : List Char) :
    noEllipsisGlyph (expandEllipsis l) = true := by
  induction l with
  | nil => rfl
  | cons c cs ih =>
      rw [expand_cons]
      by_cases hc : c.toNat = 8230
      · rw [if_pos hc]
        simp only [List.cons_append, List.nil_append, noEllipsisGlyph, List.all_cons]
        rw [noEllipsisGlyph] at ih
        rw [ih]
        decide
      · rw [if_neg hc]
        simp only [List.cons_append, List.nil_append, noEllipsisGlyph, List.all_cons]
        rw [noEllipsisGlyph] at ih
        rw [ih]
        simp [hc]

theorem noCurly_expand (l : List Char) (h : noCurlyQuotes l = true) :
    noCurlyQuotes (expandEllipsis l) = true := by
  induction l with
  | nil => rfl
  | cons c cs ih =>
      rw [noCurlyQuotes, List.all_cons] at h
      rcases Bool.and_eq_true_iff.mp h with ⟨h1, h2⟩
      rw [expand_cons]
      by_cases hc : c.toNat = 8230
      · rw [if_pos hc]
        simp only [List.cons_append, List.nil_append, noCurlyQuotes, List.all_cons]
        have := ih h2
        rw [noCurlyQuotes] at this
        rw [this]
        decide
      · rw [if_neg hc]
        simp only [List.cons_append, List.nil_append, noCurlyQuotes, List.all_cons]
        have := ih h2
        rw [noCurlyQuotes] at this
        rw [this, h1]
        rfl

theorem expandEllipsis_eq_self (l : List Char) (h : noEllipsisGlyph l = true) :
    expandEllipsis l = l := by
  induction l with
  | nil => rfl
  | cons c cs ih =>
      rw [noEllipsisGlyph, List.all_cons] at h
      rcases Bool.and_eq_true_iff.mp h with ⟨h1, h2⟩
      have hc : c.toNat ≠ 8230 := by simpa using h1
      rw [expand_cons, if_neg hc, ih h2]
      rfl

theorem map_replaceQuotes_eq_self (l : List Char) (h : noCurlyQuotes l = true) :
    l.map replaceQuotes = l := by
  induction l with
  | nil => rfl
  | cons c cs ih =>
      rw [noCurlyQuotes, List.all_cons] at h
      rcases Bool.and_eq_true_iff.mp h with ⟨h1, h2⟩
      have h1x : c.toNat ≠ 8216 ∧ c.toNat ≠ 8217 ∧ c.toNat ≠ 8220 ∧ c.toNat ≠ 8221 := by
        simpa [not_or, and_assoc] using h1
      rw [List.map_cons, ih h2,
        replaceQuotes_eq_self c h1x.1 h1x.2.1 h1x.2.2.1 h1x.2.2.2]

/-- C10: `normalizeText` is idempotent, and its output never contains
leading or trailing whitespace, two adjacent whitespace characters,
curly quote characters, or the ellipsis glyph. -/
theorem C10_normalizeText (s : List Char) :
    normalizeText (normalizeText s) = normalizeText s ∧
    headWs (normalizeText s) = false ∧
    lastWs (normalizeText s) = false ∧
    noWsRun (normalizeText s) = true ∧
    noCurlyQuotes (normalizeText s) = true ∧
    noEllipsisGlyph (normalizeText s) = true := by
  have hBh : headWs (collapseWsAux false (trimChars s)) = false :=
    headWs_collapse_false _ (headWs_trim s)
  have hBl : lastWs (collapseWsAux false (trimChars s)) = false :=
    lastWs_collapse _ (lastWs_trim s) false
  have hBr : noWsRun (collapseWsAux false (trimChars s)) = true :=
    noWsRun_collapse _ false
  have hBs : wsOnlySpace (collapseWsAux false (trimChars s)) = true :=
    wsOnlySpace_collapse _ false
  have hCh : headWs ((collapseWsAux false (trimChars s)).map replaceQuotes) = false :=
    (headWs_map_replaceQuotes _).trans hBh
  have hCl : lastWs ((collapseWsAux false (trimChars s)).map replaceQuotes) = false :=
    (lastWs_map_replaceQuotes _).trans hBl
  have hCr := noWsRun_map_replaceQuotes _ hBr
  have hCs := wsOnlySpace_map_replaceQuotes _ hBs
  have hCc := noCurlyQuotes_map_replaceQuotes (collapseWsAux false (trimChars s))
  have hNs : normalizeText s =
      expandEllipsis ((collapseWsAux false (trimChars s)).map replaceQuotes) := rfl
  have hDh : headWs (normalizeText s) = false := by rw [hNs, headWs_expand]; exact hCh
  have hDl : lastWs (normalizeText s) = false := by rw [hNs, lastWs_expand]; exact hCl
  have hDr : noWsRun (normalizeText s) = true := by rw [hNs]; exact noWsRun_expand _ hCr
  have hDs : wsOnlySpace (normalizeText s) = true := by
    rw [hNs]; exact wsOnlySpace_expand _ hCs
  have hDc : noCurlyQuotes (normalizeText s) = true := by
    rw [hNs]; exact noCurly_expand _ hCc
  have hDe : noEllipsisGlyph (normalizeText s) = true := by
    rw [hNs]; exact noEllipsis_expand _
  refine ⟨?_, hDh, hDl, hDr, hDc, hDe⟩
  show expandEllipsis ((collapseWsAux false (trimChars (normalizeText s))).map
    replaceQuotes) = normalizeText s
  rw [trim_eq_self _ hDh hDl, collapse_eq_self _ hDs hDr,
    map_replaceQuotes_eq_self _ hDc, expandEllipsis_eq_self _ hDe]

theorem dictFind_append (d1 d2 : CMUDict) (k : List Char) :
    dictFind (d1 ++ d2) k = (dictFind d1 k).or (dictFind d2 k) := by
  unfold dictFind
  rw [List.find?_append]
  cases List.find? (fun e => e.1 == k) d1 <;> simp

theorem buildDict_loop (k : List Char) :
    ∀ (rest : List (List Char × String)) (acc : CMUDict),
      dictFind
        (rest.foldl
          (fun acc e =>
            let n := dictNormalizeWord e.1
            if (dictFind acc n).isSome then acc else acc ++ [(n, e.2)])
          acc) k =
      (dictFind acc k).or
        ((rest.find? fun e => dictNormalizeWord e.1 == k).map Prod.snd) := by
  intro rest
  induction rest with
  | nil => intro acc; simp
  | cons e rest ih =>
      intro acc
      rw [List.foldl_cons, ih]
      by_cases hn : dictNormalizeWord e.1 = k
      · rcases hacc : dictFind acc k with _ | v
        · have hfind : dictFind acc (dictNormalizeWord e.1) = none := by rw [hn]; exact hacc
          simp only [hfind, Option.isSome_none, Bool.false_eq_true, if_false]
          rw [dictFind_append, hacc]
          have h1 : dictFind [(dictNormalizeWord e.1, e.2)] k = some e.2 := by
            simp [dictFind, hn]
          rw [h1]
          have h2 : (List.find? (fun x => dictNormalizeWord x.1 == k) (e :: rest)) = some e := by
            rw [List.find?_cons_of_pos]
            simp [hn]
          rw [h2]
          simp
        · have hfind : (dictFind acc (dictNormalizeWord e.1)).isSome = true := by
            rw [hn, hacc]; rfl
          simp only [hfind, if_true]
          rw [hacc]
          simp
      · have hne : (dictNormalizeWord e.1 == k) = false := by
          simpa using hn
        have hstep : dictFind
            (if (dictFind acc (dictNormalizeWord e.1)).isSome then acc
             else acc ++ [(dictNormalizeWord e.1, e.2)]) k = dictFind acc k := by
          split
          · rfl
          · rw [dictFind_append]
            have h1 : dictFind [(dictNormalizeWord e.1, e.2)] k = none := by
              simp [dictFind, hn]
            rw [h1]
            cases dictFind acc k <;> rfl
        simp only at hstep ⊢
        rw [hstep, List.find?_cons_of_neg]
        simp [hne]

/-- C8: the dictionary load is idempotent (after the first call every
repeated call returns the same cached mapping without reparsing), on a
key collision after normalization the first-seen transcription wins,
and lookup normalizes the query with the same normalization used for
keys and returns the stored transcription or `none`, never failing on
unknown words. -/
theorem C8_dictionary (raw : List (List Char × String)) (cache : Option CMUDict)
    (w k : List Char) :
    ((loadCMUDictionary raw ((loadCMUDictionary raw cache).2.1)).1 =
        (loadCMUDictionary raw cache).1 ∧
      (loadCMUDictionary raw ((loadCMUDictionary raw cache).2.1)).2.1 =
        (loadCMUDictionary raw cache).2.1 ∧
      (loadCMUDictionary raw ((loadCMUDictionary raw cache).2.1)).2.2 = false) ∧
    dictFind (buildDict raw) k =
      ((raw.find? fun e => dictNormalizeWord e.1 == k).map Prod.snd) ∧
    (lookupWord raw cache w).1 =
      dictFind (loadCMUDictionary raw cache).1 (dictNormalizeWord w) ∧
    ((∀ e ∈ raw, (dictNormalizeWord e.1 == dictNormalizeWord w) = false) →
      (lookupWord raw none w).1 = none) := by
  refine ⟨?_, ?_, rfl, ?_⟩
  · cases cache <;> simp [loadCMUDictionary]
  · have := buildDict_loop k raw []
    simpa [buildDict, dictFind] using this
  · intro hall
    have h1 : (lookupWord raw none w).1 =
        dictFind (buildDict raw) (dictNormalizeWord w) := rfl
    have h2 := buildDict_loop (dictNormalizeWord w) raw []
    have h3 : (List.find? (fun e => dictNormalizeWord e.1 == dictNormalizeWord w) raw) =
        none := List.find?_eq_none.mpr (by intro x hx; simp [hall x hx])
    rw [h1]
    rw [show buildDict raw = raw.foldl
      (fun acc e =>
        let n := dictNormalizeWord e.1
        if (dictFind acc n).isSome then acc else acc ++ [(n, e.2)]) [] from rfl]
    rw [h2, h3]
    rfl

/-- C8 witness: a concrete raw table with a colliding key and an unknown
query. -/
theorem C8_dictionary_witness :
    (∀ e ∈ [(['a'], "one"), (['a'], "two")],
      (dictNormalizeWord e.1 == dictNormalizeWord ['b']) = false) ∧
    (lookupWord [(['a'], "one"), (['a'], "two")] none ['b']).1 = none :=
  ⟨by decide,
   (C8_dictionary [(['a'], "one"), (['a'], "two")] none ['b'] ['a']).2.2.2 (by decide)⟩

/-! ### Helper lemmas for text chunking -/

theorem filter_dropWhile_nonWs (l : List Char) :
    (l.dropWhile isJsWhitespace).filter (fun c => !isJsWhitespace c) =
      l.filter (fun c => !isJsWhitespace c) := by
  induction l with
  | nil => rfl
  | cons c cs ih =>
      cases hc : isJsWhitespace c
      · simp [List.dropWhile_cons, hc]
      · simp [List.dropWhile_cons, hc, List.filter_cons, ih]

theorem filter_trimChars (l : List Char) :
    (trimChars l).filter (fun c => !isJsWhitespace c) =
      l.filter (fun c => !isJsWhitespace c) := by
  unfold trimChars
  rw [List.filter_reverse, filter_dropWhile_nonWs, List.filter_reverse,
    filter_dropWhile_nonWs, List.reverse_reverse]

theorem trimChars_length_le (l : List Char) : (trimChars l).length ≤ l.length := by
  unfold trimChars
  rw [List.length_reverse]
  calc ((l.dropWhile isJsWhitespace).reverse.dropWhile isJsWhitespace).length
      ≤ (l.dropWhile isJsWhitespace).reverse.length := length_dropWhile_le_self _ _
    _ = (l.dropWhile isJsWhitespace).length := by rw [List.length_reverse]
    _ ≤ l.length := length_dropWhile_le_self _ _

theorem getElem?_some_lt (l : List Char) (i : Nat) (c : Char) (h : l[i]? = some c) :
    i < l.length := by
  by_contra hcon
  push_neg at hcon
  rw [List.getElem?_eq_none hcon] at h
  cases h

theorem split_at_char (l : List Char) (i : Nat) (c : Char) (h : l[i]? = some c) :
    l = l.take i ++ c :: l.drop (i + 1) := by
  have hi : i < l.length := getElem?_some_lt l i c h
  have hc : l[i] = c := by
    rw [List.getElem?_eq_getElem hi] at h
    exact Option.some.inj h
  conv_lhs => rw [← List.take_append_drop i l, List.drop_eq_getElem_cons hi, hc]

theorem findSentenceEnd_some :
    ∀ (w : List Char) (se : Nat), findSentenceEnd w = some se →
      ∃ d, w[se + 1]? = some d ∧ isJsWhitespace d = true := by
  intro w
  induction w with
  | nil => intro se h; simp [findSentenceEnd] at h
  | cons c cs ih =>
      intro se h
      cases cs with
      | nil => simp [findSentenceEnd] at h
      | cons d rest =>
          by_cases hcond : (isSentencePunct c && isJsWhitespace d) = true
          · rw [findSentenceEnd, if_pos hcond] at h
            have hse : se = 0 := (Option.some.inj h).symm
            subst hse
            exact ⟨d, by simp, (Bool.and_eq_true_iff.mp hcond).2⟩
          · rw [findSentenceEnd, if_neg hcond] at h
            rcases Option.map_eq_some'.mp h with ⟨se2, hfind, hse⟩
            rcases ih se2 hfind with ⟨x, hx, hwx⟩
            subst hse
            exact ⟨x, by rw [List.getElem?_cons_succ]; exact hx, hwx⟩

theorem lastSpaceIdx_some :
    ∀ (w : List Char) (i : Nat), lastSpaceIdx w = some i →
      w[i]? = some (Char.ofNat 32) := by
  intro w
  induction w with
  | nil => intro i h; simp [lastSpaceIdx] at h
  | cons c cs ih =>
      intro i h
      rcases hr : lastSpaceIdx cs with _ | j
      · rw [lastSpaceIdx, hr] at h
        by_cases hc : c = Char.ofNat 32
        · simp only [hc, if_pos rfl] at h
          have hi : i = 0 := (Option.some.inj h).symm
          subst hi
          rw [hc]
          simp
        · rw [if_neg hc] at h
          cases h
      · rw [lastSpaceIdx, hr] at h
        have hi : i = j + 1 := (Option.some.inj h).symm
        subst hi
        rw [List.getElem?_cons_succ]
        exact ih j hr

theorem hardCut_spec (s : List Char) (maxLen : Nat) (hml : 1 ≤ maxLen)
    (hlong : maxLen < s.length) :
    (s.take maxLen).filter (fun c => !isJsWhitespace c) ++
      (s.drop maxLen).filter (fun c => !isJsWhitespace c) =
      s.filter (fun c => !isJsWhitespace c) ∧
    (s.take maxLen).length ≤ maxLen ∧ (s.drop maxLen).length < s.length := by
  refine ⟨?_, ?_, ?_⟩
  · rw [← List.filter_append, List.take_append_drop]
  · rw [List.length_take]; omega
  · rw [List.length_drop]; omega

theorem cut_at_space_spec (s : List Char) (k : Nat)
    (hk : s[k]? = some (Char.ofNat 32)) :
    (s.take k).filter (fun c => !isJsWhitespace c) ++
      (s.drop (k + 1)).filter (fun c => !isJsWhitespace c) =
      s.filter (fun c => !isJsWhitespace c) := by
  conv_rhs => rw [split_at_char s k _ hk]
  rw [List.filter_append, List.filter_cons]
  have hws : isJsWhitespace (Char.ofNat 32) = true := by decide
  simp [hws]

theorem wordOrHardCut_spec (s : List Char) (maxLen : Nat) (hml : 1 ≤ maxLen)
    (hlong : maxLen < s.length) :
    (wordOrHardCut s maxLen).1.filter (fun c => !isJsWhitespace c) ++
      (wordOrHardCut s maxLen).2.filter (fun c => !isJsWhitespace c) =
      s.filter (fun c => !isJsWhitespace c) ∧
    (wordOrHardCut s maxLen).1.length ≤ maxLen ∧
    (wordOrHardCut s maxLen).2.length < s.length := by
  unfold wordOrHardCut
  split
  · rename_i wb hw
    by_cases h30 : 30 < wb
    · rw [if_pos h30]
      have hsp : (s.take maxLen)[wb]? = some (Char.ofNat 32) := lastSpaceIdx_some _ _ hw
      have hwb_lt : wb < (s.take maxLen).length := getElem?_some_lt _ _ _ hsp
      rw [List.length_take] at hwb_lt
      have hwb_max : wb < maxLen := by omega
      have hswb : s[wb]? = some (Char.ofNat 32) := by
        rw [List.getElem?_take, if_pos hwb_max] at hsp
        exact hsp
      refine ⟨cut_at_space_spec s wb hswb, ?_, ?_⟩
      · rw [List.length_take]; omega
      · rw [List.length_drop]; omega
    · rw [if_neg h30]
      exact hardCut_spec s maxLen hml hlong
  · exact hardCut_spec s maxLen hml hlong

theorem chunkStep_spec (s : List Char) (maxLen : Nat) (hml : 1 ≤ maxLen)
    (hlong : maxLen < s.length) :
    (chunkStep s maxLen).1.filter (fun c => !isJsWhitespace c) ++
      (chunkStep s maxLen).2.filter (fun c => !isJsWhitespace c) =
      s.filter (fun c => !isJsWhitespace c) ∧
    (chunkStep s maxLen).1.length ≤ maxLen ∧
    (chunkStep s maxLen).2.length < s.length := by
  unfold chunkStep
  split
  · rename_i se hf
    by_cases h50 : 50 < se
    · rw [if_pos h50]
      rcases findSentenceEnd_some _ _ hf with ⟨d, hd, hwd⟩
      have hse_lt : se + 1 < (s.take maxLen).length := getElem?_some_lt _ _ _ hd
      rw [List.length_take] at hse_lt
      have hse_max : se + 1 < maxLen := by omega
      have hsd : s[se + 1]? = some d := by
        rw [List.getElem?_take, if_pos hse_max] at hd
        exact hd
      refine ⟨?_, ?_, ?_⟩
      · conv_rhs => rw [split_at_char s (se + 1) _ hsd]
        rw [List.filter_append, List.filter_cons]
        simp [hwd]
      · rw [List.length_take]; omega
      · rw [List.length_drop]; omega
    · rw [if_neg h50]
      exact wordOrHardCut_spec s maxLen hml hlong
  · exact wordOrHardCut_spec s maxLen hml hlong

theorem chunkLoop_props (maxLen : Nat) (hml : 1 ≤ maxLen) :
    ∀ (fuel : Nat) (s : List Char), s.length ≤ fuel →
      ((chunkLoopFuel fuel s maxLen).flatten.filter (fun c => !isJsWhitespace c) =
        s.filter (fun c => !isJsWhitespace c)) ∧
      (∀ c ∈ chunkLoopFuel fuel s maxLen, c.length ≤ maxLen) := by
  intro fuel
  induction fuel with
  | zero =>
      intro s hs
      have : s = [] := List.length_eq_zero.mp (by omega)
      subst this
      simp [chunkLoopFuel]
  | succ fuel ih =>
      intro s hs
      by_cases hnil : s = []
      · subst hnil
        simp [chunkLoopFuel]
      · by_cases hshort : s.length ≤ maxLen
        · rw [chunkLoopFuel, if_neg hnil, if_pos hshort]
          refine ⟨?_, ?_⟩
          · simp [filter_trimChars]
          · intro c hc
            rcases List.mem_singleton.mp hc with rfl
            exact le_trans (trimChars_length_le s) hshort
        · push_neg at hshort
          rcases chunkStep_spec s maxLen hml hshort with ⟨hfil, hlen1, hlen2⟩
          have hrec := ih (chunkStep s maxLen).2 (by omega)
          rw [chunkLoopFuel, if_neg hnil, if_neg (by omega)]
          refine ⟨?_, ?_⟩
          · rw [List.flatten_cons, List.filter_append, filter_trimChars, hrec.1, hfil]
          · intro c hc
            rcases List.mem_cons.mp hc with rfl | hc2
            · exact le_trans (trimChars_length_le _) hlen1
            · exact hrec.2 c hc2

/-- C5: a text no longer than the limit is returned unchanged as the
single chunk; in general concatenating the chunks preserves the
sequence of non-whitespace characters exactly (differences are confined
to dropped boundary whitespace), every chunk is at most `maxLen` long,
and for longer texts every returned chunk is non-empty. -/
theorem C5_chunkText (text : List Char) (maxLen : Nat) (hml : 1 ≤ maxLen) :
    (text.length ≤ maxLen → chunkText text maxLen = [text]) ∧
    (chunkText text maxLen).flatten.filter (fun c => !isJsWhitespace c) =
      text.filter (fun c => !isJsWhitespace c) ∧
    (∀ c ∈ chunkText text maxLen, c.length ≤ maxLen) ∧
    (maxLen < text.length → ∀ c ∈ chunkText text maxLen, c ≠ []) := by
  by_cases hshort : text.length ≤ maxLen
  · rw [chunkText, if_pos hshort]
    refine ⟨fun _ => rfl, by simp, ?_, ?_⟩
    · intro c hc
      rcases List.mem_singleton.mp hc with rfl
      exact hshort
    · intro hlong
      omega
  · push_neg at hshort
    rcases chunkLoop_props maxLen hml text.length text le_rfl with ⟨hfil, hlen⟩
    rw [chunkText, if_neg (by omega)]
    refine ⟨fun h => absurd h (by omega), ?_, ?_, ?_⟩
    · rw [← hfil]
      have hsub : ∀ (L : List (List Char)),
          ((L.filter fun c => decide (0 < c.length)).flatten.filter
            (fun c => !isJsWhitespace c)) =
          (L.flatten.filter (fun c => !isJsWhitespace c)) := by
        intro L
        induction L with
        | nil => rfl
        | cons x xs ihL =>
            by_cases hx : 0 < x.length
            · simp [List.filter_cons, hx, List.flatten_cons, List.filter_append, ihL]
            · have hxnil : x = [] := List.length_eq_zero.mp (by omega)
              subst hxnil
              simpa [List.filter_cons, List.flatten_cons] using ihL
      exact hsub _
    · intro c hc
      exact hlen c (List.mem_of_mem_filter hc)
    · intro _ c hc
      have := (List.mem_filter.mp hc).2
      simp at this
      exact List.ne_nil_of_length_pos this

/-- C5 witness: the theorem applied at a concrete text and limit. -/
theorem C5_chunkText_witness :
    (([97, 32, 98].map Char.ofNat).length ≤ 1 →
      chunkText ([97, 32, 98].map Char.ofNat) 1 = [[97, 32, 98].map Char.ofNat]) ∧
    (chunkText ([97, 32, 98].map Char.ofNat) 1).flatten.filter
        (fun c => !isJsWhitespace c) =
      ([97, 32, 98].map Char.ofNat).filter (fun c => !isJsWhitespace c) ∧
    (∀ c ∈ chunkText ([97, 32, 98].map Char.ofNat) 1, c.length ≤ 1) ∧
    (1 < ([97, 32, 98].map Char.ofNat).length →
      ∀ c ∈ chunkText ([97, 32, 98].map Char.ofNat) 1, c ≠ []) :=
  C5_chunkText ([97, 32, 98].map Char.ofNat) 1 (by decide)

/-! ### Playback queue lemmas -/

theorem qRun_fifo :
    ∀ (events : List QEvent) (st : QState),
      (qRun st events).played ++ (qRun st events).queue =
        st.played ++ st.queue ++ pushesOf events := by
  intro events
  induction events with
  | nil => intro st; simp [qRun, pushesOf]
  | cons e es ih =>
      intro st
      obtain ⟨q, p⟩ := st
      cases e with
      | push i =>
          rw [qRun, ih]
          simp [qStep, qPush, pushesOf]
      | play =>
          cases q with
          | nil =>
              rw [qRun, ih]
              simp [qStep, qPlayNext, pushesOf]
          | cons x rest =>
              rw [qRun, ih]
              simp [qStep, qPlayNext, pushesOf]

theorem qRun_append (es1 es2 : List QEvent) :
    ∀ st, qRun st (es1 ++ es2) = qRun (qRun st es1) es2 := by
  induction es1 with
  | nil => intro st; rfl
  | cons e es ih => intro st; rw [List.cons_append, qRun, qRun, ih]

theorem qRun_pushes (xs : List Nat) :
    ∀ st : QState, qRun st (xs.map QEvent.push) =
      { queue := st.queue ++ xs, played := st.played } := by
  induction xs with
  | nil => intro st; simp [qRun]
  | cons x xs ih =>
      intro st
      rw [List.map_cons, qRun, qStep, ih]
      simp [qPush]

theorem qRun_drain :
    ∀ (k : Nat) (st : QState), st.queue.length ≤ k →
      qRun st (List.replicate k QEvent.play) =
        { queue := [], played := st.played ++ st.queue } := by
  intro k
  induction k with
  | zero =>
      intro st h
      obtain ⟨q, p⟩ := st
      have hq : q = [] := List.length_eq_zero.mp (by simpa using h)
      subst hq
      simp [qRun, List.replicate]
  | succ k ih =>
      intro st h
      obtain ⟨q, p⟩ := st
      cases q with
      | nil =>
          rw [List.replicate_succ, qRun]
          have hstep : qStep ⟨[], p⟩ QEvent.play = ⟨[], p⟩ := rfl
          rw [hstep]
          simpa using ih ⟨[], p⟩ (by simp)
      | cons x rest =>
          rw [List.replicate_succ, qRun]
          have hstep : qStep ⟨x :: rest, p⟩ QEvent.play = ⟨rest, p ++ [x]⟩ := rfl
          rw [hstep, ih ⟨rest, p ++ [x]⟩ (by simp at h ⊢; omega)]
          simp

theorem insertByLat_length (lat : List Nat) (i : Nat) :
    ∀ acc, (insertByLat lat i acc).length = acc.length + 1 := by
  intro acc
  induction acc with
  | nil => rfl
  | cons j rest ih =>
      rw [insertByLat]
      split
      · simp [ih]
      · simp

theorem completionOrder_length (lat : List Nat) :
    (completionOrder lat).length = lat.length := by
  unfold completionOrder
  suffices h : ∀ (n : Nat) (acc : List Nat),
      ((List.range n).foldl (fun acc i => insertByLat lat (i + 1) acc) acc).length =
        acc.length + n by
    simpa using h lat.length []
  intro n
  induction n with
  | zero => intro acc; simp
  | succ n ih =>
      intro acc
      rw [List.range_succ, List.foldl_append, List.foldl_cons, List.foldl_nil,
        insertByLat_length, ih]
      omega

theorem insertByLat_append_of_le (lat : List Nat) (i : Nat) :
    ∀ acc, (∀ j ∈ acc, latKey lat j ≤ latKey lat i) →
      insertByLat lat i acc = acc ++ [i] := by
  intro acc
  induction acc with
  | nil => intro _; rfl
  | cons j rest ih =>
      intro h
      rw [insertByLat, if_pos (h j (by simp)), ih (fun x hx => h x (by simp [hx]))]
      rfl

theorem completionOrder_monotone (lat : List Nat)
    (hmono : List.Pairwise (· ≤ ·) lat) :
    completionOrder lat = (List.range lat.length).map (· + 1) := by
  unfold completionOrder
  suffices h : ∀ n, n ≤ lat.length →
      (List.range n).foldl (fun acc i => insertByLat lat (i + 1) acc) [] =
        (List.range n).map (· + 1) from h lat.length le_rfl
  intro n
  induction n with
  | zero => intro _; rfl
  | succ n ih =>
      intro hn
      rw [List.range_succ, List.foldl_append, List.map_append, ih (by omega),
        List.foldl_cons, List.foldl_nil]
      apply insertByLat_append_of_le
      intro j hj
      rcases List.mem_map.mp hj with ⟨k, hk, rfl⟩
      have hkn : k < n := List.mem_range.mp hk
      have hk_lt : k < lat.length := by omega
      have hn_lt : n < lat.length := by omega
      unfold latKey
      simp only [Nat.add_sub_cancel]
      rw [List.getD_eq_getElem lat 0 hk_lt, List.getD_eq_getElem lat 0 hn_lt]
      exact List.pairwise_iff_getElem.mp hmono k n hk_lt hn_lt (by omega)

/-- C2 counterexample: with chunks submitted in order `[A, B, C]`
(indices 0, 1, 2) and generation latencies 5 for B and 1 for C, C's
task completes and pushes before B's, so the consume loop plays
`A, C, B` — completion order, not submission order. -/
theorem C2_counterexample :
    playedOrder [5, 1] = [0, 2, 1] ∧ playedOrder [5, 1] ≠ [0, 1, 2] := by
  refine ⟨by decide, by decide⟩

/-- C2 amended: the playback queue itself is strict FIFO (played
sequence followed by the remaining queue always equals the push
sequence), chunk 0 plays first, and the consume loop plays the chunks
in generation-completion order; this coincides with the submission
order exactly when the completion order is monotone (for example when
the latencies of the background tasks are weakly increasing), but not
for arbitrary randomized latencies. -/
theorem C2_amended (lat : List Nat) (events : List QEvent) :
    (qRun { queue := [], played := [] } events).played ++
        (qRun { queue := [], played := [] } events).queue = pushesOf events ∧
    playedOrder lat = 0 :: completionOrder lat ∧
    (List.Pairwise (· ≤ ·) lat → playedOrder lat = submissionOrder lat.length) := by
  have hplayed : playedOrder lat = 0 :: completionOrder lat := by
    unfold playedOrder streamTrace
    have hsplit : QEvent.push 0 :: ((completionOrder lat).map QEvent.push ++
        List.replicate (lat.length + 1) QEvent.play) =
        ((0 :: completionOrder lat).map QEvent.push) ++
          List.replicate (lat.length + 1) QEvent.play := by
      simp
    rw [hsplit, qRun_append, qRun_pushes]
    rw [qRun_drain (lat.length + 1) _ (by simp [completionOrder_length])]
    simp
  refine ⟨?_, hplayed, ?_⟩
  · simpa using qRun_fifo events { queue := [], played := [] }
  · intro hmono
    rw [hplayed, completionOrder_monotone lat hmono, submissionOrder]

/-- C2 amended witness: weakly increasing latencies give submission
order. -/
theorem C2_amended_witness :
    playedOrder [1, 2] = 0 :: completionOrder [1, 2] ∧
    playedOrder [1, 2] = submissionOrder 2 :=
  ⟨(C2_amended [1, 2] []).2.1, (C2_amended [1, 2] []).2.2 (by decide)⟩

/-! ### Lemmas for the number-words round trip -/

theorem splitWordsAux_append_sep (sep : Char)
    (hsep : sep = Char.ofNat 32 ∨ sep = Char.ofNat 45) :
    ∀ (xs ys acc : List Char),
      splitWordsAux (xs ++ sep :: ys) acc =
        splitWordsAux xs acc ++ splitWordsAux ys [] := by
  intro xs
  induction xs with
  | nil =>
      intro ys acc
      rw [List.nil_append, splitWordsAux, splitWordsAux, if_pos hsep]
      by_cases hacc : acc = []
      · rw [if_pos hacc, if_pos hacc, List.nil_append]
      · rw [if_neg hacc, if_neg hacc, List.cons_append, List.nil_append]
  | cons x xs ih =>
      intro ys acc
      rw [List.cons_append, splitWordsAux, splitWordsAux]
      by_cases hx : x = Char.ofNat 32 ∨ x = Char.ofNat 45
      · rw [if_pos hx, if_pos hx]
        by_cases hacc : acc = []
        · rw [if_pos hacc, if_pos hacc, ih]
        · rw [if_neg hacc, if_neg hacc, ih, List.cons_append]
      · rw [if_neg hx, if_neg hx, ih]

theorem stepWord_small (st : PState) (w : List Char) (v : Nat)
    (h : smallValue w = some v) :
    stepWord st w = ⟨st.total, st.current + v⟩ := by
  unfold stepWord
  rw [h]
  rfl

theorem stepWord_hundred (st : PState) :
    stepWord st ("hundred" : String).data = ⟨st.total, st.current * 100⟩ := by
  unfold stepWord
  rw [show smallValue ("hundred" : String).data = none from by decide]
  rw [stepWordAux, if_pos rfl]

theorem stepWord_thousand (st : PState) :
    stepWord st ("thousand" : String).data = ⟨st.total + st.current * 1000, 0⟩ := by
  unfold stepWord
  rw [show smallValue ("thousand" : String).data = none from by decide]
  rw [stepWordAux, if_neg (by decide), if_pos rfl]

theorem stepWord_million (st : PState) :
    stepWord st ("million" : String).data = ⟨st.total + st.current * 1000000, 0⟩ := by
  unfold stepWord
  rw [show smallValue ("million" : String).data = none from by decide]
  rw [stepWordAux, if_neg (by decide), if_neg (by decide), if_pos rfl]

theorem stepWord_billion (st : PState) :
    stepWord st ("billion" : String).data =
      ⟨st.total + st.current * 1000000000, 0⟩ := by
  unfold stepWord
  rw [show smallValue ("billion" : String).data = none from by decide]
  rw [stepWordAux, if_neg (by decide), if_neg (by decide), if_neg (by decide),
    if_pos rfl]

theorem foldl_stepWord_addValues :
    ∀ (ws : List (List Char)) (v : Nat), addValuesOnly ws = some v →
      ∀ st : PState, ws.foldl stepWord st = ⟨st.total, st.current + v⟩ := by
  intro ws
  induction ws with
  | nil =>
      intro v h st
      have hv : v = 0 := by simpa [addValuesOnly] using h.symm
      subst hv
      obtain ⟨t, c⟩ := st
      simp
  | cons w ws ih =>
      intro v h st
      rcases hw : smallValue w with _ | vw
      · rw [addValuesOnly, hw] at h
        cases h
      · rw [addValuesOnly, hw] at h
        rcases Option.map_eq_some'.mp h with ⟨vr, hvr, hsum⟩
        rw [List.foldl_cons, stepWord_small st w vw hw, ih vr hvr]
        have : st.current + vw + vr = st.current + v := by omega
        rw [this]

theorem F100 : ∀ n, n < 100 → 0 < n →
    addValuesOnly (splitWordsAux (numberToWordsFuel 1 n).data []) = some n := by
  decide

theorem F10 : ∀ h, h < 10 → 0 < h →
    addValuesOnly (splitWordsAux (ONES.getD h "").data []) = some h := by
  decide

theorem fuel_small (fuel n : Nat) (h0 : 0 < n) (h100 : n < 100) :
    numberToWordsFuel (fuel + 1) n = numberToWordsFuel 1 n := by
  unfold numberToWordsFuel
  split_ifs <;> first | rfl | (exfalso; omega)

theorem tokens_space_append (A B : String) :
    splitWordsAux ((A ++ (" " ++ B)).data) [] =
      splitWordsAux A.data [] ++ splitWordsAux B.data [] := by
  have hd : (A ++ (" " ++ B)).data = A.data ++ Char.ofNat 32 :: B.data := by
    rw [String.data_append, String.data_append,
      show (" " : String).data = [Char.ofNat 32] from rfl]
    rfl
  rw [hd, splitWordsAux_append_sep (Char.ofNat 32) (Or.inl rfl)]

theorem split_single_hundred :
    splitWordsAux ("hundred" : String).data [] = [("hundred" : String).data] := by
  decide

theorem split_single_thousand :
    splitWordsAux ("thousand" : String).data [] = [("thousand" : String).data] := by
  decide

theorem split_single_million :
    splitWordsAux ("million" : String).data [] = [("million" : String).data] := by
  decide

theorem split_single_billion :
    splitWordsAux ("billion" : String).data [] = [("billion" : String).data] := by
  decide

theorem space_hundred : (" hundred" : String) = " " ++ "hundred" := by decide

theorem space_thousand : (" thousand" : String) = " " ++ "thousand" := by decide

theorem space_million : (" million" : String) = " " ++ "million" := by decide

theorem space_billion : (" billion" : String) = " " ++ "billion" := by decide

/-- The parse behavior claimed for `numberToWordsFuel fuel`: starting
from an open-group state `⟨T, 0⟩`, the tokens of the produced string
bring the parser to exactly `⟨T, n⟩` when `n < 1000`, and in all cases
to a state denoting `T + n`. -/
def ParsesBack (fuel : Nat) : Prop :=
  ∀ n, 0 < n → n < 10 ^ fuel → n < 10 ^ 12 → ∀ T,
    (n < 1000 →
      (splitWordsAux (numberToWordsFuel fuel n).data []).foldl stepWord ⟨T, 0⟩ =
        ⟨T, n⟩) ∧
    (((splitWordsAux (numberToWordsFuel fuel n).data []).foldl stepWord
        ⟨T, 0⟩).total +
      ((splitWordsAux (numberToWordsFuel fuel n).data []).foldl stepWord
        ⟨T, 0⟩).current = T + n)

theorem scale_case (fuel : Nat) (ih : ParsesBack fuel)
    (n q rem scale : Nat) (W : String)
    (hn : n = q * scale + rem)
    (hq0 : 0 < q) (hq1000 : q < 1000) (hqfuel : q < 10 ^ fuel)
    (hremfuel : rem < 10 ^ fuel) (hrem12 : rem < 10 ^ 12)
    (hq12 : q < 10 ^ 12)
    (hstep : ∀ st : PState, stepWord st W.data = ⟨st.total + st.current * scale, 0⟩)
    (hsplitW : splitWordsAux W.data [] = [W.data])
    (hstr : numberToWordsFuel (fuel + 1) n =
      numberToWordsFuel fuel q ++ (" " ++ W) ++
        (if rem > 0 then " " ++ numberToWordsFuel fuel rem else ""))
    (T : Nat) :
    ((splitWordsAux (numberToWordsFuel (fuel + 1) n).data []).foldl stepWord
        ⟨T, 0⟩).total +
      ((splitWordsAux (numberToWordsFuel (fuel + 1) n).data []).foldl stepWord
        ⟨T, 0⟩).current = T + n := by
  rw [hstr]
  have hq := ih q hq0 hqfuel hq12 T
  have hqexact := hq.1 hq1000
  by_cases hrem : rem > 0
  · rw [if_pos hrem]
    have htok : splitWordsAux ((numberToWordsFuel fuel q ++ (" " ++ W) ++
        (" " ++ numberToWordsFuel fuel rem)).data) [] =
        (splitWordsAux (numberToWordsFuel fuel q).data [] ++ [W.data]) ++
          splitWordsAux (numberToWordsFuel fuel rem).data [] := by
      rw [tokens_space_append (numberToWordsFuel fuel q ++ (" " ++ W))
        (numberToWordsFuel fuel rem)]
      rw [tokens_space_append (numberToWordsFuel fuel q) W, hsplitW]
    rw [htok, List.foldl_append, List.foldl_append, hqexact]
    have hWstep : List.foldl stepWord (⟨T, q⟩ : PState) [W.data] =
        ⟨T + q * scale, 0⟩ := by
      rw [List.foldl_cons, List.foldl_nil, hstep]
    rw [hWstep]
    have hrapp := (ih rem hrem hremfuel hrem12 (T + q * scale)).2
    omega
  · rw [if_neg hrem]
    have hrem_eq : rem = 0 := by omega
    have htok : splitWordsAux ((numberToWordsFuel fuel q ++ (" " ++ W) ++
        "").data) [] =
        splitWordsAux (numberToWordsFuel fuel q).data [] ++ [W.data] := by
      rw [show (numberToWordsFuel fuel q ++ (" " ++ W) ++ "") =
        numberToWordsFuel fuel q ++ (" " ++ W) from by
          rw [String.append_empty]]
      rw [tokens_space_append (numberToWordsFuel fuel q) W, hsplitW]
    rw [htok, List.foldl_append, hqexact]
    have hWstep : List.foldl stepWord (⟨T, q⟩ : PState) [W.data] =
        ⟨T + q * scale, 0⟩ := by
      rw [List.foldl_cons, List.foldl_nil, hstep]
    rw [hWstep]
    show T + q * scale + 0 = T + n
    omega

theorem pow10_mono {a b : Nat} (h : a ≤ b) : (10 : Nat) ^ a ≤ 10 ^ b :=
  Nat.pow_le_pow_right (by norm_num) h

theorem fuel_ge_of_lt {k fuel n : Nat} (hn : 10 ^ k ≤ n) (hpow : n < 10 ^ (fuel + 1)) :
    k ≤ fuel := by
  have h1 : (10 : Nat) ^ k < 10 ^ (fuel + 1) := lt_of_le_of_lt hn hpow
  have h2 : k < fuel + 1 := (Nat.pow_lt_pow_iff_right (by norm_num)).mp h1
  omega

theorem parsesBack_all : ∀ fuel, ParsesBack fuel := by
  intro fuel
  induction fuel with
  | zero =>
      intro n h0 hpow _ T
      rw [pow_zero] at hpow
      exact absurd h0 (by omega)
  | succ fuel ih =>
      intro n h0 hpow h12 T
      by_cases h100 : n < 100
      · have heq := fuel_small fuel n h0 h100
        have hval := F100 n h100 h0
        have hfold := foldl_stepWord_addValues _ n hval ⟨T, 0⟩
        constructor
        · intro _
          rw [heq, hfold]
          simp
        · rw [heq, hfold]
          show T + (0 + n) = T + n
          omega
      · by_cases h1000 : n < 1000
        · -- hundreds case
          have hstr : numberToWordsFuel (fuel + 1) n =
              ONES.getD (n / 100) "" ++ (" " ++ "hundred") ++
                (if n % 100 > 0 then " " ++ numberToWordsFuel fuel (n % 100)
                 else "") := by
            conv_lhs => rw [numberToWordsFuel]
            rw [if_neg (by omega), if_neg (by omega), if_neg (by omega),
              if_neg h100, if_pos h1000, space_hundred]
          have hfuel2 : 2 ≤ fuel := by
            have h1 : (10 : Nat) ^ 2 ≤ n := by norm_num; omega
            exact fuel_ge_of_lt h1 hpow
          obtain ⟨k, hk⟩ : ∃ k, fuel = k + 1 := ⟨fuel - 1, by omega⟩
          have hOnes := foldl_stepWord_addValues _ (n / 100)
            (F10 (n / 100) (by omega) (by omega)) (⟨T, 0⟩ : PState)
          have hfinal : (splitWordsAux (numberToWordsFuel (fuel + 1) n).data
              []).foldl stepWord ⟨T, 0⟩ = ⟨T, n⟩ := by
            rw [hstr]
            by_cases hrem : n % 100 > 0
            · rw [if_pos hrem]
              have htok : splitWordsAux ((ONES.getD (n / 100) "" ++
                  (" " ++ "hundred") ++
                  (" " ++ numberToWordsFuel fuel (n % 100))).data) [] =
                  (splitWordsAux (ONES.getD (n / 100) "").data [] ++
                    [("hundred" : String).data]) ++
                    splitWordsAux (numberToWordsFuel fuel (n % 100)).data [] := by
                rw [tokens_space_append (ONES.getD (n / 100) "" ++
                  (" " ++ "hundred")) (numberToWordsFuel fuel (n % 100))]
                rw [tokens_space_append (ONES.getD (n / 100) "") "hundred",
                  split_single_hundred]
              rw [htok, List.foldl_append, List.foldl_append, hOnes]
              have hH : List.foldl stepWord (⟨T, 0 + n / 100⟩ : PState)
                  [("hundred" : String).data] = ⟨T, (0 + n / 100) * 100⟩ := by
                rw [List.foldl_cons, List.foldl_nil, stepWord_hundred]
              rw [hH]
              have hremstr : numberToWordsFuel fuel (n % 100) =
                  numberToWordsFuel 1 (n % 100) := by
                rw [hk]
                exact fuel_small k (n % 100) hrem (by omega)
              rw [hremstr]
              have hremfold := foldl_stepWord_addValues _ (n % 100)
                (F100 (n % 100) (by omega) hrem)
                (⟨T, (0 + n / 100) * 100⟩ : PState)
              rw [hremfold]
              have : (0 + n / 100) * 100 + n % 100 = n := by omega
              rw [this]
            · rw [if_neg hrem]
              have htok : splitWordsAux ((ONES.getD (n / 100) "" ++
                  (" " ++ "hundred") ++ "").data) [] =
                  splitWordsAux (ONES.getD (n / 100) "").data [] ++
                    [("hundred" : String).data] := by
                rw [show (ONES.getD (n / 100) "" ++ (" " ++ "hundred") ++ "") =
                  ONES.getD (n / 100) "" ++ (" " ++ "hundred") from by
                    rw [String.append_empty]]
                rw [tokens_space_append (ONES.getD (n / 100) "") "hundred",
                  split_single_hundred]
              rw [htok, List.foldl_append, hOnes]
              have hH : List.foldl stepWord (⟨T, 0 + n / 100⟩ : PState)
                  [("hundred" : String).data] = ⟨T, (0 + n / 100) * 100⟩ := by
                rw [List.foldl_cons, List.foldl_nil, stepWord_hundred]
              rw [hH]
              have : (0 + n / 100) * 100 = n := by omega
              rw [this]
          refine ⟨fun _ => hfinal, ?_⟩
          rw [hfinal]
        · -- thousand/million/billion cases
          have h12n : n < 1000000000000 := by
            have : (10 : Nat) ^ 12 = 1000000000000 := by norm_num
            omega
          refine ⟨fun h => absurd h (by omega), ?_⟩
          by_cases h6 : n < 1000000
          · -- thousands
            have hfuel3 : 3 ≤ fuel := by
              have h1 : (10 : Nat) ^ 3 ≤ n := by norm_num; omega
              exact fuel_ge_of_lt h1 hpow
            have hp : (1000 : Nat) ≤ 10 ^ fuel := by
              calc (1000 : Nat) = 10 ^ 3 := by norm_num
                _ ≤ 10 ^ fuel := pow10_mono hfuel3
            apply scale_case fuel ih n (n / 1000) (n % 1000) 1000 "thousand"
              (by omega) (by omega) (by omega) (by omega)
              (by omega) (by norm_num; omega)
              (lt_of_le_of_lt (Nat.div_le_self n 1000) h12)
              (fun st => stepWord_thousand st) split_single_thousand
            conv_lhs => rw [numberToWordsFuel]
            rw [if_neg (by omega), if_neg (by omega), if_neg (by omega),
              if_neg h100, if_neg h1000, if_pos h6, space_thousand]
          · by_cases h9 : n < 1000000000
            · -- millions
              have hfuel6 : 6 ≤ fuel := by
                have h1 : (10 : Nat) ^ 6 ≤ n := by norm_num; omega
                exact fuel_ge_of_lt h1 hpow
              have hp : (1000000 : Nat) ≤ 10 ^ fuel := by
                calc (1000000 : Nat) = 10 ^ 6 := by norm_num
                  _ ≤ 10 ^ fuel := pow10_mono hfuel6
              apply scale_case fuel ih n (n / 1000000) (n % 1000000) 1000000
                "million" (by omega) (by omega) (by omega) (by omega)
                (by omega) (by norm_num; omega)
                (lt_of_le_of_lt (Nat.div_le_self n 1000000) h12)
                (fun st => stepWord_million st) split_single_million
              conv_lhs => rw [numberToWordsFuel]
              rw [if_neg (by omega), if_neg (by omega), if_neg (by omega),
                if_neg h100, if_neg h1000, if_neg h6, if_pos h9, space_million]
            · -- billions
              have hfuel9 : 9 ≤ fuel := by
                have h1 : (10 : Nat) ^ 9 ≤ n := by norm_num; omega
                exact fuel_ge_of_lt h1 hpow
              have hp : (1000000000 : Nat) ≤ 10 ^ fuel := by
                calc (1000000000 : Nat) = 10 ^ 9 := by norm_num
                  _ ≤ 10 ^ fuel := pow10_mono hfuel9
              apply scale_case fuel ih n (n / 1000000000) (n % 1000000000)
                1000000000 "billion" (by omega) (by omega) (by omega) (by omega)
                (by omega) (by norm_num; omega)
                (lt_of_le_of_lt (Nat.div_le_self n 1000000000) h12)
                (fun st => stepWord_billion st) split_single_billion
              conv_lhs => rw [numberToWordsFuel]
              rw [if_neg (by omega), if_neg (by omega), if_neg (by omega),
                if_neg h100, if_neg h1000, if_neg h6, if_neg h9, space_billion]

theorem convertAux_nil : ∀ fuel, convertAux fuel [] = [] := by
  intro fuel
  cases fuel <;> rfl

theorem takeCommaGroupsFuel_nil : ∀ fuel, takeCommaGroupsFuel fuel [] = ([], []) := by
  intro fuel
  cases fuel <;> rfl

theorem takeDigits_all :
    ∀ (k : Nat) (s : List Char), s.length ≤ k → (∀ c ∈ s, isDigitChar c = true) →
      takeDigits k s = (s, []) := by
  intro k
  induction k with
  | zero =>
      intro s h1 _
      have hs : s = [] := List.length_eq_zero.mp (by omega)
      subst hs
      rfl
  | succ k ih =>
      intro s h1 h2
      cases s with
      | nil => rfl
      | cons c cs =>
          have hc : isDigitChar c = true := h2 c (by simp)
          have hcs := ih cs (by simpa using h1) (fun x hx => h2 x (by simp [hx]))
          simp only [takeDigits, hc, if_true, hcs]

theorem matchNumberAt_digits (s : List Char) (hne : s ≠ []) (hlen : s.length ≤ 3)
    (hdig : ∀ c ∈ s, isDigitChar c = true) :
    matchNumberAt s = some (s, []) := by
  cases s with
  | nil => exact absurd rfl hne
  | cons c rest =>
      have hc : isDigitChar c = true := hdig c (by simp)
      have hc45 : ¬(c = Char.ofNat 45) := by
        intro h
        rw [h] at hc
        exact absurd hc (by decide)
      have htd := takeDigits_all 3 (c :: rest) hlen hdig
      simp only [matchNumberAt, hc45, if_false, hc, if_true, htd,
        takeCommaGroupsFuel_nil, takeDecimalPart, List.append_nil]

theorem digit_ne_comma (c : Char) (h : isDigitChar c = true) :
    ¬(c = Char.ofNat 44) := by
  intro hcc
  rw [hcc] at h
  exact absurd h (by decide)

theorem digit_contains_no_dot :
    ∀ s : List Char, (∀ c ∈ s, isDigitChar c = true) →
      s.contains (Char.ofNat 46) = false := by
  intro s
  induction s with
  | nil => intro _; rfl
  | cons c cs ih =>
      intro h
      have hc : isDigitChar c = true := h c (by simp)
      have hne : ¬(Char.ofNat 46 = c) := by
        intro hcc
        rw [← hcc] at hc
        exact absurd hc (by decide)
      have := ih fun x hx => h x (by simp [hx])
      rw [List.contains_cons, this]
      simp [hne]

theorem numberExpansion_digits (s : List Char) (hne : s ≠ [])
    (hdig : ∀ c ∈ s, isDigitChar c = true) :
    numberExpansion s = numberToWords (parseNatDigits s : Int) := by
  unfold numberExpansion numberExpansionOf
  have hfil : (s.filter fun c => !(c = Char.ofNat 44)) = s := by
    apply List.filter_eq_self.mpr
    intro c hc
    simpa using digit_ne_comma c (hdig c hc)
  rw [hfil, digit_contains_no_dot s hdig, if_neg (by simp)]
  unfold parseIntNumStr
  cases s with
  | nil => exact absurd rfl hne
  | cons c rest =>
      have hc : isDigitChar c = true := hdig c (by simp)
      have hc45 : ¬((c :: rest).head? = some (Char.ofNat 45)) := by
        intro h
        have : c = Char.ofNat 45 := by simpa using h
        rw [this] at hc
        exact absurd hc (by decide)
      rw [if_neg hc45]

theorem convert_digits (s : List Char) (hne : s ≠ []) (hlen : s.length ≤ 3)
    (hdig : ∀ c ∈ s, isDigitChar c = true) :
    convertNumbersToWords ⟨s⟩ = numberToWords (parseNatDigits s : Int) := by
  unfold convertNumbersToWords
  cases s with
  | nil => exact absurd rfl hne
  | cons c rest =>
      have hm := matchNumberAt_digits (c :: rest) hne hlen hdig
      show String.mk (convertAux (rest.length + 1) (c :: rest)) = _
      rw [convertAux, hm]
      simp only [numberExpansion_digits _ hne hdig, convertAux_nil,
        List.append_nil]

/-- C1 counterexample: the regex `\d{1,3}(?:,\d{3})*` matches at most
three digits per group, so the plain four-digit string "1000" is
matched as "100" followed by "0"; the replacement yields
"one hundredzero", which does not denote 1000 (the oracle reads it as
1, since "hundredzero" is not a number word) and differs from
`numberToWords 1000` = "one thousand". -/
theorem C1_counterexample :
    convertNumbersToWords "1000" = "one hundredzero" ∧
    wordsToNumber (convertNumbersToWords "1000") = 1 ∧
    convertNumbersToWords "1000" ≠ numberToWords ((1000 : Nat) : Int) := by
  refine ⟨by decide, by decide, by decide⟩

/-- C1 amended: `numberToWords` itself is correct for every
`0 ≤ n < 10^12` — the produced word sequence re-parses to exactly `n` —
and `convertNumbersToWords` preserves this on the decimal string of `n`
only up to three digits (`n < 1000`); for longer plain decimal strings
the regex splits the digit run into groups of at most three (comma-
grouped input like "1,234" is required beyond that). -/
theorem C1_amended :
    (∀ n : Nat, n < 10 ^ 12 → wordsToNumber (numberToWords (n : Int)) = n) ∧
    (∀ s : List Char, s ≠ [] → s.length ≤ 3 →
      (∀ c ∈ s, isDigitChar c = true) →
      convertNumbersToWords ⟨s⟩ = numberToWords (parseNatDigits s : Int)) := by
  constructor
  · intro n hn
    by_cases h0 : n = 0
    · subst h0
      decide
    · have hstr : numberToWords (n : Int) = numberToWordsFuel 20 n := by
        unfold numberToWords
        rw [if_neg (not_lt.mpr (Int.natCast_nonneg n)), Int.toNat_natCast]
      rw [hstr]
      unfold wordsToNumber
      have h := (parsesBack_all 20 n (by omega)
        (lt_of_lt_of_le hn (pow10_mono (by norm_num))) hn 0).2
      simpa using h
  · intro s hne hlen hdig
    exact convert_digits s hne hlen hdig

/-- C1 amended witness: `n = 42` and the two-digit string "42". -/
theorem C1_amended_witness :
    wordsToNumber (numberToWords ((42 : Nat) : Int)) = 42 ∧
    convertNumbersToWords ⟨[Char.ofNat 52, Char.ofNat 50]⟩ =
      numberToWords (parseNatDigits [Char.ofNat 52, Char.ofNat 50] : Int) :=
  ⟨C1_amended.1 42 (by norm_num),
   C1_amended.2 [Char.ofNat 52, Char.ofNat 50] (by decide) (by decide)
     (by decide)⟩

end VoiceChat
